import Mathlib

/-!
# Scheduling engine of `mykernel2.c`

A shallow embedding of the process table, the ring procedures (FIFO, LIFO,
round robin), the proportional (stride) procedures and the five kernel entry
points, followed by theorems about them.

Conventions of the embedding:

* C `int` values are `Int`.  Arithmetic on shares and pass values is wrapped to
  32 bits with `wrap32`; arithmetic on table positions (`head`, `tail`, `p-1`,
  loop counters) is left unwrapped, these stay within a few units of the table
  size.  C `/` and `%` are `Int.tdiv` and `Int.tmod` (truncation).
* `MAXPROCS` comes from `sys.h`, which is not part of the sources; the table is
  a list and `MAXPROCS` is its length, fixed when the table is created by `boot`.
* An access to `proctab` outside `0..MAXPROCS-1` and the use of a local that was
  never assigned are undefined in C; the embedding reports them as a `Fault`.
  So does the test `passValue + stride < passValue` of `runProc` when the sum
  does not fit an `int`: the sum is only compared, never stored, and a compiler
  may reduce the test to `stride < 0`.
* `GetSchedPolicy ()` is a kernel accessor; the policy is a parameter.
  `DoSched`, `SetTimer` and `DPrintf` are kernel services that do not touch the
  variables of this file and are left out.
-/

namespace Scheduling

/-- One entry of `proctab`. -/
structure Proc where
  valid : Int
  pid : Int
  requested : Int
  stride : Int
  percent : Int
  runnable : Int
  passValue : Int
  deriving DecidableEq, Repr

/-- The file-level variables: `proctab`, `head`, `tail`, `isEmpty`,
`currCPURequested`. -/
structure Sched where
  proctab : List Proc
  head : Int
  tail : Int
  isEmpty : Int
  currCPURequested : Int
  deriving DecidableEq, Repr

/-- The scheduling policies of `sys.h`. -/
inductive Policy where
  | ARBITRARY
  | FIFO
  | LIFO
  | ROUNDROBIN
  | PROPORTIONAL
  deriving DecidableEq, Repr

/-- Undefined behaviour the embedding makes explicit. -/
inductive Fault where
  | outOfBounds
  | unset
  | overflow
  deriving DecidableEq, Repr

def MIN_CPU_REQUEST : Int := 0
def MAX_CPU_REQUEST : Int := 100
def L : Int := 100000
def MAX_INT : Int := 2147483647

/-- Size of the process table. -/
def MAXPROCS (s : Sched) : Int := s.proctab.length

/-- Wrap of a mathematical integer to a 32-bit `int`. -/
def wrap32 (x : Int) : Int := (x + 2147483648) % 4294967296 - 2147483648

/-- A zero-filled table entry (static storage). -/
def zeroProc : Proc :=
  { valid := 0, pid := 0, requested := 0, stride := 0, percent := 0, runnable := 0, passValue := 0 }

/-- State at program start: statics are zero, `currCPURequested = 0`. -/
def boot (maxprocs : Nat) : Sched :=
  { proctab := List.replicate maxprocs zeroProc, head := 0, tail := 0, isEmpty := 0,
    currCPURequested := 0 }

/-- Read `proctab[i]`. -/
def rd (s : Sched) (i : Int) : Except Fault Proc :=
  if 0 ≤ i ∧ i < MAXPROCS s then
    match s.proctab[i.toNat]? with
    | some e => .ok e
    | none => .error .outOfBounds
  else .error .outOfBounds

/-- Update fields of `proctab[i]`. -/
def wr (s : Sched) (i : Int) (f : Proc → Proc) : Except Fault Sched :=
  match rd s i with
  | .ok e => .ok { s with proctab := s.proctab.set i.toNat (f e) }
  | .error x => .error x

/-! ### FIFO procedures -/

def enterQueue (p : Int) (s : Sched) : Except Fault (Int × Sched) :=
  if s.tail.tmod (MAXPROCS s) = s.head ∧ s.isEmpty = 0 then .ok (0, s)
  else
    let s1 := { s with isEmpty := 0 }
    match wr s1 s1.tail (fun e => { e with valid := 1, pid := p }) with
    | .error x => .error x
    | .ok s2 => .ok (1, { s2 with tail := (s2.tail + 1).tmod (MAXPROCS s2) })

def exitQueue (p : Int) (s : Sched) : Except Fault (Int × Sched) :=
  match rd s s.head with
  | .error x => .error x
  | .ok e =>
    if e.valid = 0 ∨ e.pid ≠ p then .ok (0, s)
    else
      match wr s s.head (fun e => { e with valid := 0 }) with
      | .error x => .error x
      | .ok s1 =>
        let s2 := { s1 with head := (s1.head + 1).tmod (MAXPROCS s1) }
        if s2.head = s2.tail then .ok (1, { s2 with isEmpty := 1, head := 0, tail := 0 })
        else .ok (1, s2)

/-! ### LIFO procedures -/

def enterStack (p : Int) (s : Sched) : Except Fault (Int × Sched) :=
  if s.head.tmod (MAXPROCS s) = s.tail ∧ s.isEmpty = 0 then .ok (0, s)
  else
    let s1 := { s with isEmpty := 0 }
    match wr s1 s1.head (fun e => { e with valid := 1, pid := p }) with
    | .error x => .error x
    | .ok s2 => .ok (1, { s2 with head := (s2.head + 1).tmod (MAXPROCS s2) })

/-- The condition `!proctab[--head].valid || ...` decrements `head` before the
test, so the decrement is kept on the failing return as well. -/
def exitStack (p : Int) (s : Sched) : Except Fault (Int × Sched) :=
  let s0 := { s with head := s.head - 1 }
  match rd s0 s0.head with
  | .error x => .error x
  | .ok e =>
    if e.valid = 0 ∨ e.pid ≠ p then .ok (0, s0)
    else
      match wr s0 s0.head (fun e => { e with valid := 0 }) with
      | .error x => .error x
      | .ok s1 =>
        let s2 := { s1 with head := s1.head.tmod (MAXPROCS s1) }
        if s2.head = s2.tail then .ok (1, { s2 with isEmpty := 0, head := 0, tail := 0 })
        else .ok (1, s2)

/-! ### Round robin -/

def switchProc (s : Sched) : Except Fault (Int × Sched) :=
  if s.isEmpty ≠ 0 then .ok (0, s)
  else if s.head = s.tail then .ok (1, s)
  else
    let prevHead := s.head.tmod (MAXPROCS s)
    match wr s prevHead (fun e => { e with valid := 0 }) with
    | .error x => .error x
    | .ok s1 =>
      let s2 := { s1 with head := (s1.head + 1).tmod (MAXPROCS s1) }
      let s3 := { s2 with tail := (s2.tail + 1).tmod (MAXPROCS s2) }
      let tmpTail : Int := if s3.tail - 1 < 0 then 9 else s3.tail - 1
      match rd s3 prevHead with
      | .error x => .error x
      | .ok src =>
        match wr s3 tmpTail (fun _ => src) with
        | .error x => .error x
        | .ok s4 =>
          match wr s4 tmpTail (fun e => { e with valid := 1 }) with
          | .error x => .error x
          | .ok s5 => .ok (1, s5)

/-! ### Proportional procedures -/

def isInRange (s : Sched) (i : Int) : Int :=
  if i < 0 ∨ i ≥ MAXPROCS s then 0 else 1

def resetOverflow (minPassValue : Int) (s : Sched) : Sched :=
  { s with proctab := s.proctab.map (fun e =>
      if e.valid ≠ 0 then { e with passValue := wrap32 (e.passValue - minPassValue) } else e) }

/-- Value of `currCPURequested` after the first loop of `distributeCPU`. -/
def sumRequested (tab : List Proc) : Int :=
  tab.foldl (fun acc e =>
    if e.valid ≠ 0 ∧ e.requested ≠ 0 then wrap32 (acc + e.percent) else acc) 0

/-- Value of `unrequestedCount` after the first loop of `distributeCPU`. -/
def countUnrequested (tab : List Proc) : Int :=
  tab.foldl (fun acc e =>
    if e.valid ≠ 0 ∧ e.requested = 0 then acc + 1 else acc) 0

/-- Both loops of `distributeCPU` visit every slot once and touch only the slot
visited, so each is a map over the table; the two counters of the first loop are
`sumRequested` and `countUnrequested`. -/
def distributeCPU (s : Sched) : Sched :=
  let curr := sumRequested s.proctab
  let unrequestedCount := countUnrequested s.proctab
  let tab1 := s.proctab.map (fun e =>
    if e.valid ≠ 0 ∧ e.requested ≠ 0 then { e with runnable := 1 } else e)
  let numerator := wrap32 (MAX_CPU_REQUEST - curr)
  let percent : Int :=
    if unrequestedCount > 0 then
      (if numerator ≥ unrequestedCount then numerator.tdiv unrequestedCount else 0)
    else 0
  let tab2 := tab1.map (fun e =>
    if e.valid ≠ 0 ∧ e.requested = 0 then
      (if percent > 0 then { e with stride := L.tdiv percent, runnable := 1 }
       else { e with runnable := 0 })
    else e)
  { s with proctab := tab2, currCPURequested := curr }

/-- The search loop of `runProc`: `i` is the index of the first entry of the
list, the result is `(min, minIndex)`; `minIndex` is `none` while unassigned. -/
def runProcScan : List Proc → Int → Int → Option Int → Int × Option Int
  | [], _, min, minIndex => (min, minIndex)
  | e :: es, i, min, minIndex =>
    if e.runnable ≠ 0 ∧ e.passValue < min then runProcScan es (i + 1) e.passValue (some i)
    else runProcScan es (i + 1) min minIndex

/-- The guard `passValue + stride < passValue` adds two `int`s and compares the
sum.  When the sum is outside the 32-bit range the addition is a signed
overflow, which C leaves undefined: `Fault.overflow`.  When it is inside, the
test is the plain comparison (true exactly when `stride < 0`). -/
def runProc (s : Sched) : Except Fault (Int × Sched) :=
  match (runProcScan s.proctab 0 MAX_INT none).2 with
  | none => .error .unset
  | some minIndex =>
    match rd s minIndex with
    | .error x => .error x
    | .ok e =>
      if e.passValue + e.stride < -2147483648 ∨ MAX_INT < e.passValue + e.stride then
        .error .overflow
      else
        let s1 :=
          if e.passValue + e.stride < e.passValue then resetOverflow e.passValue s else s
        match wr s1 minIndex
            (fun e => { e with passValue := wrap32 (e.passValue + e.stride) }) with
        | .error x => .error x
        | .ok s2 => .ok (minIndex, s2)

/-! ### Kernel entry points -/

def InitSched (s : Sched) : Sched :=
  { s with head := 0, tail := 0, isEmpty := 1,
           proctab := s.proctab.map (fun e => { e with valid := 0 }) }

/-- The ARBITRARY loop of `StartingProc`: claim the first free entry. -/
def startArbitrary (p : Int) : List Proc → Option (List Proc)
  | [] => none
  | e :: es =>
    if e.valid = 0 then some ({ e with valid := 1, pid := p } :: es)
    else (startArbitrary p es).map (fun es1 => e :: es1)

/-- The ARBITRARY loop of `EndingProc`: free the first valid entry holding `p`. -/
def endArbitrary (p : Int) : List Proc → Option (List Proc)
  | [] => none
  | e :: es =>
    if e.valid ≠ 0 ∧ e.pid = p then some ({ e with valid := 0 } :: es)
    else (endArbitrary p es).map (fun es1 => e :: es1)

/-- When the ARBITRARY loop finds no free entry control reaches
`if(!returnVal)` with `returnVal` never assigned. -/
def StartingProc (pol : Policy) (p : Int) (s : Sched) : Except Fault (Int × Sched) :=
  match pol with
  | .ARBITRARY =>
    match startArbitrary p s.proctab with
    | some tab => .ok (1, { s with proctab := tab })
    | none => .error .unset
  | .FIFO => enterQueue p s
  | .LIFO => enterStack p s
  | .ROUNDROBIN => enterQueue p s
  | .PROPORTIONAL =>
    match wr s (p - 1) (fun e =>
        { e with pid := p, valid := 1, stride := 0, runnable := 1, requested := 0, percent := 0 }) with
    | .error x => .error x
    | .ok s1 => .ok (1, distributeCPU s1)

def EndingProc (pol : Policy) (p : Int) (s : Sched) : Except Fault (Int × Sched) :=
  match pol with
  | .ARBITRARY =>
    match endArbitrary p s.proctab with
    | some tab => .ok (1, { s with proctab := tab })
    | none => .error .unset
  | .FIFO => exitQueue p s
  | .LIFO => exitStack p s
  | .ROUNDROBIN => exitQueue p s
  | .PROPORTIONAL =>
    match wr s (p - 1) (fun e =>
        { e with pid := p, valid := 0, stride := 0, runnable := 0, requested := 0, percent := 0 }) with
    | .error x => .error x
    | .ok s1 => .ok (1, distributeCPU s1)

/-- The ARBITRARY loop of `SchedProc`. -/
def firstValidPid : List Proc → Int
  | [] => 0
  | e :: es => if e.valid ≠ 0 then e.pid else firstValidPid es

/-- The body of `case LIFO:`; `case FIFO:` has no `break` and falls into it. -/
def schedLIFO (s : Sched) : Except Fault (Int × Sched) :=
  match rd s (s.head - 1) with
  | .error x => .error x
  | .ok e => if e.valid ≠ 0 then .ok (e.pid, s) else .ok (0, s)

def SchedProc (pol : Policy) (s : Sched) : Except Fault (Int × Sched) :=
  match pol with
  | .ARBITRARY => .ok (firstValidPid s.proctab, s)
  | .FIFO =>
    match rd s s.head with
    | .error x => .error x
    | .ok e => if e.valid ≠ 0 then .ok (e.pid, s) else schedLIFO s
  | .LIFO => schedLIFO s
  | .ROUNDROBIN =>
    match switchProc s with
    | .error x => .error x
    | .ok (r, s1) =>
      if r ≠ 0 then
        match rd s1 s1.head with
        | .error x => .error x
        | .ok e => if e.valid ≠ 0 then .ok (e.pid, s1) else .ok (0, s1)
      else .ok (0, s1)
  | .PROPORTIONAL =>
    match runProc s with
    | .error x => .error x
    | .ok (i, s1) =>
      match rd s1 i with
      | .error x => .error x
      | .ok e => if e.valid ≠ 0 ∧ isInRange s1 i ≠ 0 then .ok (e.pid, s1) else .ok (0, s1)

def MyRequestCPUrate (p n : Int) (s : Sched) : Except Fault (Int × Sched) :=
  match rd s (p - 1) with
  | .error x => .error x
  | .ok e =>
    if e.requested ≠ 0 ∧ e.valid ≠ 0 then
      if n = 0 then
        match wr s (p - 1) (fun e => { e with requested := 0, passValue := 0 }) with
        | .error x => .error x
        | .ok s1 => .ok (0, distributeCPU s1)
      else if wrap32 (wrap32 (s.currCPURequested - e.percent) + n) > 100 then .ok (-1, s)
      else
        match wr s (p - 1) (fun e =>
            { e with stride := L.tdiv n, percent := n, passValue := 0 }) with
        | .error x => .error x
        | .ok s1 => .ok (0, distributeCPU s1)
    else if n < MIN_CPU_REQUEST ∨ n > MAX_CPU_REQUEST then
      match wr s (p - 1) (fun e => { e with requested := 0 }) with
      | .error x => .error x
      | .ok s1 => .ok (-1, distributeCPU s1)
    else if wrap32 (n + s.currCPURequested) > MAX_CPU_REQUEST then
      match wr s (p - 1) (fun e => { e with requested := 0 }) with
      | .error x => .error x
      | .ok s1 => .ok (-1, distributeCPU s1)
    else if n = 0 then
      match wr s (p - 1) (fun e => { e with requested := 0 }) with
      | .error x => .error x
      | .ok s1 => .ok (0, s1)
    else
      match wr s (p - 1) (fun e =>
          { e with requested := 1, stride := L.tdiv n, percent := n }) with
      | .error x => .error x
      | .ok s1 => .ok (0, s1)

/-! ### Call sequences -/

/-- A call the kernel makes into the engine. -/
inductive Call where
  | start (p : Int)
  | finish (p : Int)
  | sched
  | request (p n : Int)
  deriving DecidableEq, Repr

def step (pol : Policy) (c : Call) (s : Sched) : Except Fault (Int × Sched) :=
  match c with
  | .start p => StartingProc pol p s
  | .finish p => EndingProc pol p s
  | .sched => SchedProc pol s
  | .request p n => MyRequestCPUrate p n s

/-- Run a sequence of calls, collecting the return values. -/
def runCalls (pol : Policy) : List Call → Sched → Except Fault (List Int × Sched)
  | [], s => .ok ([], s)
  | c :: cs, s =>
    match step pol c s with
    | .error x => .error x
    | .ok (r, s1) =>
      match runCalls pol cs s1 with
      | .error x => .error x
      | .ok (rs, s2) => .ok (r :: rs, s2)

/-- Return values of a run that did not fault. -/
def results (r : Except Fault (List Int × Sched)) : Option (List Int) :=
  match r with
  | .ok (rs, _) => some rs
  | .error _ => none

/-- Final state of a run that did not fault. -/
def final (r : Except Fault (List Int × Sched)) : Option Sched :=
  match r with
  | .ok (_, s) => some s
  | .error _ => none

/-- Calls the kernel makes under a policy: `MyRequestCPUrate` serves the
proportional policy only. -/
def Call.allowed (pol : Policy) : Call → Prop
  | .request _ _ => pol = .PROPORTIONAL
  | _ => True

/-- States the engine reaches from `InitSched` on a table of `maxprocs` entries
through calls that return (a faulting call has no defined successor state). -/
inductive Reach (pol : Policy) (maxprocs : Nat) : Sched → Prop where
  | init : Reach pol maxprocs (InitSched (boot maxprocs))
  | call {s s1 : Sched} {c : Call} {r : Int} :
      Reach pol maxprocs s → c.allowed pol → step pol c s = .ok (r, s1) →
      Reach pol maxprocs s1

/-- Sum of effective percentages over runnable valid slots, in the words of the
capacity-conservation property: `percent` for a requested slot, and
`floor((100 - currCPURequested) / unrequestedCount)` for a runnable unrequested
slot. -/
def effectiveSum (s : Sched) : Int :=
  (s.proctab.map (fun e =>
    if e.valid ≠ 0 ∧ e.runnable ≠ 0 then
      (if e.requested ≠ 0 then e.percent
       else (100 - s.currCPURequested) / countUnrequested s.proctab)
    else 0)).sum

/-- Shape of the ring variables: the table has `maxprocs` entries and `head`,
`tail` are positions in it. -/
def RingWF (maxprocs : Nat) (s : Sched) : Prop :=
  s.proctab.length = maxprocs ∧ 0 ≤ s.head ∧ s.head < maxprocs ∧
    0 ≤ s.tail ∧ s.tail < maxprocs

/-- The ring holds the logical sequence of pids `xs`, oldest first, starting at
position `h`: `head = h`, `tail` is `xs.length` positions further round the
table, `isEmpty` is clear exactly when `xs` is non-empty, and the `j`-th slot
from `h` is valid and holds `xs[j]`. -/
def RingSeq (maxprocs h : Nat) (xs : List Int) (s : Sched) : Prop :=
  s.proctab.length = maxprocs ∧ h < maxprocs ∧ s.head = (h : Int) ∧
    s.tail = (((h + xs.length) % maxprocs : Nat) : Int) ∧
    (xs ≠ [] → s.isEmpty = 0) ∧ (xs = [] → s.isEmpty ≠ 0) ∧
    ∀ j p, xs[j]? = some p →
      ∃ e, s.proctab[(h + j) % maxprocs]? = some e ∧ e.valid ≠ 0 ∧ e.pid = p

/-- Return value of a call that did not fault. -/
def retval (r : Except Fault (Int × Sched)) : Option Int :=
  match r with
  | .ok (v, _) => some v
  | .error _ => none

/-- Pids held by the valid slots, in table order. -/
def validPids (s : Sched) : List Int :=
  (s.proctab.filter (fun e => decide (e.valid ≠ 0))).map Proc.pid

/-- Indices of the valid slots. -/
def validSlots (s : Sched) : List Nat :=
  (List.range s.proctab.length).filter
    (fun i => decide ((s.proctab.getD i zeroProc).valid ≠ 0))

/-- Along the run every `StartingProc(p)` is made while no valid slot holds `p`. -/
def freshStarts (pol : Policy) : List Call → Sched → Bool
  | [], _ => true
  | c :: cs, s =>
    (match c with
      | .start p => decide (p ∉ validPids s)
      | _ => true) &&
    (match step pol c s with
      | .ok (_, s1) => freshStarts pol cs s1
      | .error _ => true)

/-- Position `i` lies on the circular run from `head` up to, not including,
`tail`; every position does when `head = tail` and `isEmpty` is clear, none when
`head = tail` and `isEmpty` is set. -/
def onRun (s : Sched) (i : Nat) : Bool :=
  if s.head = s.tail then decide (s.isEmpty = 0)
  else decide (((i : Int) - s.head) % MAXPROCS s < (s.tail - s.head) % MAXPROCS s)

/-- Ring contiguity in the words of the ring invariant: the valid slots are
exactly the positions on the run, `isEmpty` is set exactly when no slot is
valid, and then `head = tail = 0`. -/
def RingContiguous (s : Sched) : Prop :=
  (∀ i, i < s.proctab.length →
    ((s.proctab.getD i zeroProc).valid ≠ 0 ↔ onRun s i = true)) ∧
  (s.isEmpty ≠ 0 ↔ validSlots s = []) ∧
  (validSlots s = [] → s.head = 0 ∧ s.tail = 0)

instance (s : Sched) : Decidable (RingContiguous s) := by
  unfold RingContiguous
  infer_instance

/-- Sum of `percent` over the valid requested slots, as a mathematical integer. -/
def sumPercent (tab : List Proc) : Int :=
  ((tab.filter (fun e => decide (e.valid ≠ 0 ∧ e.requested ≠ 0))).map Proc.percent).sum

/-- Number of valid slots without a reservation. -/
def numUnrequested (tab : List Proc) : Nat :=
  (tab.filter (fun e => decide (e.valid ≠ 0 ∧ e.requested = 0))).length

/-- The ring holds exactly `xs`: `RingSeq` holds, there are at most `maxprocs`
elements, the empty ring sits at position 0, and every slot off the run is
invalid. -/
def RingExact (maxprocs h : Nat) (xs : List Int) (s : Sched) : Prop :=
  RingSeq maxprocs h xs s ∧ xs.length ≤ maxprocs ∧ (xs = [] → h = 0) ∧
    ∀ (i : Nat) (e : Proc), s.proctab[i]? = some e →
      (∀ j, j < xs.length → (h + j) % maxprocs ≠ i) → e.valid = 0

/-- Processes admitted and not yet removed, oldest first, read off a run of
calls paired with their return values: a `StartingProc(p)` that returned
non-zero adds `p` at the end, an `EndingProc(p)` that returned non-zero removes
`p`.  The first element is the earliest-admitted process still present. -/
def pendingFifo : List Int → List (Call × Int) → List Int
  | xs, [] => xs
  | xs, (.start p, r) :: rest => pendingFifo (if r ≠ 0 then xs ++ [p] else xs) rest
  | xs, (.finish p, r) :: rest => pendingFifo (if r ≠ 0 then xs.erase p else xs) rest
  | xs, (.sched, _) :: rest => pendingFifo xs rest
  | xs, (.request _ _, _) :: rest => pendingFifo xs rest

/-- Table of ten entries in which pid 1 holds a reservation of 100% (stride
1000, runnable, `passValue = a`) and pid 2 is live without a reservation and
starved (not runnable, `passValue = b`); the state `InitSched`,
`StartingProc(1)`, `StartingProc(2)` and two requests of 100 by pid 1 lead to,
with `a = b = 0`. -/
def strideRun (a b : Int) : Sched :=
  { proctab :=
      [{ valid := 1, pid := 1, requested := 1, stride := 1000, percent := 100, runnable := 1,
         passValue := a },
       { valid := 1, pid := 2, requested := 0, stride := 2000, percent := 0, runnable := 0,
         passValue := b }] ++ List.replicate 8 zeroProc,
    head := 0, tail := 0, isEmpty := 1, currCPURequested := 100 }

/-! ## Evaluations on the table of ten entries

`switchProc` wraps its insertion index to the literal `9`, the last index of a
table of ten entries; the evaluations below use that size. -/

/-- C2: under LIFO, after `StartingProc` of 1, 2, 3 the calls `EndingProc(2)`,
`EndingProc(3)`, `EndingProc(1)` return 0, 0, 1: the failed removal of 2 has
already moved `head` down, so 3 is no longer found on top and 1 is removed while
2 is still on the stack. -/
theorem lifo_end_2_3_1_returns :
    results (runCalls .LIFO
      [.start 1, .start 2, .start 3, .finish 2, .finish 3, .finish 1]
      (InitSched (boot 10))) = some [1, 1, 1, 0, 0, 1] := by
  decide

/-- C3: under the proportional policy, after `StartingProc` of 1 and 2, the
request of 60 by pid 1 returns 0 and the following request of 50 by pid 2
returns 0 as well; both reservations are then recorded (60 and 50). -/
theorem request_60_then_50_both_accepted :
    results (runCalls .PROPORTIONAL
      [.start 1, .start 2, .request 1 60, .request 2 50]
      (InitSched (boot 10))) = some [1, 1, 0, 0] ∧
    (final (runCalls .PROPORTIONAL
      [.start 1, .start 2, .request 1 60, .request 2 50]
      (InitSched (boot 10)))).map
        (fun s => (s.proctab.take 2).map (fun e => (e.requested, e.percent)))
      = some [(1, 60), (1, 50)] := by
  decide

/-- C4: a process that holds a reservation of 50 gets return value 0, not -1,
for a request of -5 and for a request of 150. -/
theorem request_out_of_range_accepted :
    results (runCalls .PROPORTIONAL
      [.start 1, .request 1 50, .request 1 (-5)] (InitSched (boot 10)))
      = some [1, 0, 0] ∧
    results (runCalls .PROPORTIONAL
      [.start 1, .request 1 50, .request 1 150] (InitSched (boot 10)))
      = some [1, 0, 0] := by
  decide

/-- C5: after `StartingProc` of 1 and 2 and a request of 60 by pid 1, the
request of 200 by pid 2 returns -1 and changes the stride of pid 2 from 2000 to
2500 (and `currCPURequested` from 0 to 60). -/
theorem failed_request_changes_stride :
    (final (runCalls .PROPORTIONAL
      [.start 1, .start 2, .request 1 60] (InitSched (boot 10)))).map
        (fun s => ((s.proctab.take 2).map Proc.stride, s.currCPURequested))
      = some ([1666, 2000], 0) ∧
    results (runCalls .PROPORTIONAL
      [.start 1, .start 2, .request 1 60, .request 2 200] (InitSched (boot 10)))
      = some [1, 1, 0, -1] ∧
    (final (runCalls .PROPORTIONAL
      [.start 1, .start 2, .request 1 60, .request 2 200] (InitSched (boot 10)))).map
        (fun s => ((s.proctab.take 2).map Proc.stride, s.currCPURequested))
      = some ([1666, 2500], 60) := by
  decide

/-- C6: under LIFO, after `StartingProc` of 1, 2, 3 (`head = 3`) the call
`EndingProc(2)` returns 0 and leaves `head = 2`. -/
theorem lifo_failed_end_moves_head :
    (final (runCalls .LIFO
      [.start 1, .start 2, .start 3] (InitSched (boot 10)))).map Sched.head = some 3 ∧
    results (runCalls .LIFO
      [.start 1, .start 2, .start 3, .finish 2] (InitSched (boot 10)))
      = some [1, 1, 1, 0] ∧
    (final (runCalls .LIFO
      [.start 1, .start 2, .start 3, .finish 2] (InitSched (boot 10)))).map Sched.head
      = some 2 := by
  decide

/-- C8: directly after `InitSched` no slot is valid, and `SchedProc` reads
`proctab[-1]` under FIFO and under LIFO and uses the unassigned `minIndex` under
the proportional policy; under the arbitrary and round-robin policies it
returns 0. -/
theorem sched_on_empty_table :
    (∀ e ∈ (InitSched (boot 10)).proctab, e.valid = 0) ∧
    SchedProc .FIFO (InitSched (boot 10)) = .error .outOfBounds ∧
    SchedProc .LIFO (InitSched (boot 10)) = .error .outOfBounds ∧
    SchedProc .PROPORTIONAL (InitSched (boot 10)) = .error .unset ∧
    SchedProc .ARBITRARY (InitSched (boot 10)) = .ok (0, InitSched (boot 10)) ∧
    SchedProc .ROUNDROBIN (InitSched (boot 10)) = .ok (0, InitSched (boot 10)) := by
  refine ⟨by decide, rfl, rfl, rfl, rfl, rfl⟩

/-- C9: after `StartingProc` of 1, 2, 3 and the request of 40 by pid 1
returning 0, the slots of pids 2 and 3 still have the stride of a 33% share,
`L / 33 = 3030`, not `L / 30 = 3333`. -/
theorem request_40_leaves_strides :
    results (runCalls .PROPORTIONAL
      [.start 1, .start 2, .start 3, .request 1 40] (InitSched (boot 10)))
      = some [1, 1, 1, 0] ∧
    (final (runCalls .PROPORTIONAL
      [.start 1, .start 2, .start 3, .request 1 40] (InitSched (boot 10)))).map
        (fun s => (s.proctab.take 3).map (fun e => (e.pid, e.requested, e.stride)))
      = some [(1, 1, 2500), (2, 0, 3030), (3, 0, 3030)] := by
  decide

/-- C10: after `StartingProc` of 1 and 2, requests of 60 by pid 1 and 50 by
pid 2 and `StartingProc(3)`, whose last action is `distributeCPU`,
`currCPURequested` is 110 and the effective percentages of the runnable valid
slots sum to 110; they still do after one more `distributeCPU`. -/
theorem effective_sum_110 :
    (final (runCalls .PROPORTIONAL
      [.start 1, .start 2, .request 1 60, .request 2 50, .start 3]
      (InitSched (boot 10)))).map
        (fun s => (s.currCPURequested, effectiveSum s, effectiveSum (distributeCPU s)))
      = some (110, 110, 110) := by
  decide

/-! ## Reading and writing table entries -/

theorem rd_nat {s : Sched} {i : Nat} {e : Proc} (h : s.proctab[i]? = some e) :
    rd s (i : Int) = .ok e := by
  obtain ⟨hi, _⟩ := List.getElem?_eq_some.mp h
  unfold rd MAXPROCS
  simp [hi, h]

theorem wr_nat {s : Sched} {i : Nat} {e : Proc} (f : Proc → Proc)
    (h : s.proctab[i]? = some e) :
    wr s (i : Int) f = .ok { s with proctab := s.proctab.set i (f e) } := by
  unfold wr
  rw [rd_nat h]
  simp

theorem rd_ok {s : Sched} {i : Int} {e : Proc} (h : rd s i = .ok e) :
    0 ≤ i ∧ i < s.proctab.length ∧ s.proctab[i.toNat]? = some e := by
  unfold rd MAXPROCS at h
  split_ifs at h with hi
  split at h
  · rename_i e1 he
    cases h
    exact ⟨hi.1, hi.2, he⟩
  · cases h

theorem wr_ok {s s1 : Sched} {i : Int} {f : Proc → Proc} (h : wr s i f = .ok s1) :
    ∃ e, rd s i = .ok e ∧ s1 = { s with proctab := s.proctab.set i.toNat (f e) } := by
  unfold wr at h
  split at h
  · rename_i e he
    cases h
    exact ⟨e, he, rfl⟩
  · cases h

theorem rd_mk {tab : List Proc} {hd tl ie c : Int} {i : Nat} {e : Proc}
    (h : tab[i]? = some e) : rd ⟨tab, hd, tl, ie, c⟩ (i : Int) = .ok e :=
  @rd_nat ⟨tab, hd, tl, ie, c⟩ i e h

theorem wr_mk {tab : List Proc} {hd tl ie c : Int} {i : Nat} {e : Proc} (f : Proc → Proc)
    (h : tab[i]? = some e) :
    wr ⟨tab, hd, tl, ie, c⟩ (i : Int) f = .ok ⟨tab.set i (f e), hd, tl, ie, c⟩ :=
  @wr_nat ⟨tab, hd, tl, ie, c⟩ i e f h

theorem natCast_tmod (a m : Nat) : (a : Int).tmod (m : Int) = ((a % m : Nat) : Int) := by
  rw [Int.tmod_eq_emod (by positivity) (by positivity)]
  norm_cast

theorem natCast_succ_tmod (a m : Nat) :
    ((a : Int) + 1).tmod (m : Int) = (((a + 1) % m : Nat) : Int) := by
  rw [← natCast_tmod]
  norm_cast

theorem mod_ne_of_lt {a b m : Nat} (hab : a < b) (hm : b - a < m) : a % m ≠ b % m := by
  intro h
  have h1 := Nat.sub_mod_eq_zero_of_mod_eq h.symm
  rw [Nat.mod_eq_of_lt hm] at h1
  omega

/-! ## The ring variables stay inside the table -/

theorem ringWF_init {maxprocs : Nat} (hM : 0 < maxprocs) :
    RingWF maxprocs (InitSched (boot maxprocs)) := by
  simp [RingWF, InitSched, boot, hM]

theorem enterQueue_ringWF {maxprocs : Nat} {p r : Int} {s s1 : Sched} (hM : 0 < maxprocs)
    (hwf : RingWF maxprocs s) (h : enterQueue p s = .ok (r, s1)) : RingWF maxprocs s1 := by
  obtain ⟨hl, hh0, hh1, ht0, ht1⟩ := hwf
  have hM1 : (0 : Int) < maxprocs := by exact_mod_cast hM
  unfold enterQueue at h
  split_ifs at h with hc
  · cases h; exact ⟨hl, hh0, hh1, ht0, ht1⟩
  · simp only at h
    split at h
    · cases h
    · rename_i s2 hs2
      obtain ⟨e, _, rfl⟩ := wr_ok hs2
      cases h
      refine ⟨by simpa using hl, hh0, hh1, ?_, ?_⟩
      · exact Int.tmod_nonneg _ (by simp; omega)
      · simp only [MAXPROCS, List.length_set, hl]
        exact Int.tmod_lt_of_pos _ hM1

theorem exitQueue_ringWF {maxprocs : Nat} {p r : Int} {s s1 : Sched} (hM : 0 < maxprocs)
    (hwf : RingWF maxprocs s) (h : exitQueue p s = .ok (r, s1)) : RingWF maxprocs s1 := by
  obtain ⟨hl, hh0, hh1, ht0, ht1⟩ := hwf
  have hM1 : (0 : Int) < maxprocs := by exact_mod_cast hM
  unfold exitQueue at h
  split at h
  · cases h
  · split_ifs at h with hc
    · cases h; exact ⟨hl, hh0, hh1, ht0, ht1⟩
    · split at h
      · cases h
      · rename_i s2 hs2
        obtain ⟨e, _, rfl⟩ := wr_ok hs2
        simp only at h
        split_ifs at h with hq
        · cases h
          exact ⟨by simpa using hl, le_refl _, hM1, le_refl _, hM1⟩
        · cases h
          refine ⟨by simpa using hl, ?_, ?_, ht0, ht1⟩
          · exact Int.tmod_nonneg _ (by omega)
          · simp only [MAXPROCS, List.length_set, hl]
            exact Int.tmod_lt_of_pos _ hM1

theorem switchProc_ringWF {maxprocs : Nat} {r : Int} {s s1 : Sched} (hM : 0 < maxprocs)
    (hwf : RingWF maxprocs s) (h : switchProc s = .ok (r, s1)) : RingWF maxprocs s1 := by
  obtain ⟨hl, hh0, hh1, ht0, ht1⟩ := hwf
  have hM1 : (0 : Int) < maxprocs := by exact_mod_cast hM
  unfold switchProc at h
  split_ifs at h with hc hd
  · cases h; exact ⟨hl, hh0, hh1, ht0, ht1⟩
  · cases h; exact ⟨hl, hh0, hh1, ht0, ht1⟩
  · simp only at h
    split at h
    · cases h
    · rename_i s2 hs2
      obtain ⟨e, _, rfl⟩ := wr_ok hs2
      split at h
      · cases h
      · split at h
        · cases h
        · rename_i s4 hs4
          obtain ⟨e4, _, rfl⟩ := wr_ok hs4
          split at h
          · cases h
          · rename_i s5 hs5
            obtain ⟨e5, _, rfl⟩ := wr_ok hs5
            cases h
            refine ⟨by simpa using hl, ?_, ?_, ?_, ?_⟩
            · exact Int.tmod_nonneg _ (by simp; omega)
            · simp only [MAXPROCS, List.length_set, hl]
              exact Int.tmod_lt_of_pos _ hM1
            · exact Int.tmod_nonneg _ (by simp; omega)
            · simp only [MAXPROCS, List.length_set, hl]
              exact Int.tmod_lt_of_pos _ hM1

theorem schedLIFO_state {r : Int} {s s1 : Sched} (h : schedLIFO s = .ok (r, s1)) : s1 = s := by
  unfold schedLIFO at h
  split at h
  · cases h
  · split_ifs at h <;> cases h <;> rfl

theorem step_ringWF {maxprocs : Nat} {pol : Policy} {c : Call} {r : Int} {s s1 : Sched}
    (hM : 0 < maxprocs) (hpol : pol = .FIFO ∨ pol = .ROUNDROBIN) (hc : c.allowed pol)
    (hwf : RingWF maxprocs s) (h : step pol c s = .ok (r, s1)) : RingWF maxprocs s1 := by
  cases c with
  | start p =>
    rcases hpol with rfl | rfl <;> exact enterQueue_ringWF hM hwf h
  | finish p =>
    rcases hpol with rfl | rfl <;> exact exitQueue_ringWF hM hwf h
  | sched =>
    rcases hpol with rfl | rfl
    · simp only [step, SchedProc] at h
      split at h
      · cases h
      · split_ifs at h
        · cases h; exact hwf
        · rw [schedLIFO_state h]; exact hwf
    · simp only [step, SchedProc] at h
      split at h
      · cases h
      · rename_i r1 s2 hs2
        have hwf2 := switchProc_ringWF hM hwf hs2
        split_ifs at h
        · split at h
          · cases h
          · split_ifs at h <;> cases h <;> exact hwf2
        · cases h; exact hwf2
  | request p n =>
    rcases hpol with rfl | rfl <;> simp [Call.allowed] at hc

theorem reach_ringWF {maxprocs : Nat} {pol : Policy} {s : Sched} (hM : 0 < maxprocs)
    (hpol : pol = .FIFO ∨ pol = .ROUNDROBIN) (hr : Reach pol maxprocs s) :
    RingWF maxprocs s := by
  induction hr with
  | init => exact ringWF_init hM
  | call _ hc hstep ih => exact step_ringWF hM hpol hc ih hstep

/-! ## Round robin: rotation of the ring -/

/-- Closed form of `switchProc` on a ring that is neither empty nor full, as long
as the new `tail` is not 0 or the table has ten entries (the literal `9`). -/
theorem switchProc_eq {maxprocs h t : Nat} {s : Sched} {e0 : Proc}
    (hl : s.proctab.length = maxprocs) (hhead : s.head = h) (htail : s.tail = t)
    (hh : h < maxprocs) (ht : t < maxprocs) (hht : h ≠ t) (hemp : s.isEmpty = 0)
    (hslot : s.proctab[h]? = some e0) (hw : maxprocs = 10 ∨ t + 1 < maxprocs) :
    switchProc s = .ok (1,
      { s with head := (((h + 1) % maxprocs : Nat) : Int),
               tail := (((t + 1) % maxprocs : Nat) : Int),
               proctab := (s.proctab.set h { e0 with valid := 0 }).set t
                    { e0 with valid := 1 } }) := by
  have hne : ¬ ((h : Int) = (t : Int)) := by exact_mod_cast hht
  have hp : (h : Int).tmod (maxprocs : Int) = (h : Int) := by
    rw [natCast_tmod, Nat.mod_eq_of_lt hh]
  have htmp : (if (((t + 1) % maxprocs : Nat) : Int) - 1 < 0 then (9 : Int)
      else (((t + 1) % maxprocs : Nat) : Int) - 1) = (t : Int) := by
    rcases hw with rfl | hw
    · split_ifs with hc <;> omega
    · rw [Nat.mod_eq_of_lt hw]
      split_ifs with hc
      · omega
      · push_cast; omega
  unfold switchProc
  simp only [hemp, hhead, htail, MAXPROCS, hl, ne_eq, not_true_eq_false, if_false, hne, hp,
    wr_nat _ hslot, List.length_set, natCast_succ_tmod, htmp]
  have hsrc : (s.proctab.set h { e0 with valid := 0 })[h]? = some { e0 with valid := 0 } := by
    rw [List.getElem?_set_self (by omega)]
  rw [rd_mk hsrc]
  simp only []
  have ht1 : ∃ et, (s.proctab.set h { e0 with valid := 0 })[t]? = some et := by
    have : t < (s.proctab.set h { e0 with valid := 0 }).length := by simp; omega
    exact ⟨_, List.getElem?_eq_getElem this⟩
  obtain ⟨et, het⟩ := ht1
  rw [wr_mk _ het]
  simp only []
  rw [wr_mk _ (List.getElem?_set_self (by simp; omega))]
  simp only [List.set_set]

theorem switchProc_rotates {maxprocs h : Nat} {x : Int} {xs : List Int} {s : Sched}
    (hinv : RingSeq maxprocs h (x :: xs) s) (hn : xs.length + 1 < maxprocs)
    (hw : maxprocs = 10 ∨ h + xs.length + 2 < maxprocs) :
    ∃ s1, switchProc s = .ok (1, s1) ∧ RingSeq maxprocs ((h + 1) % maxprocs) (xs ++ [x]) s1 := by
  obtain ⟨hl, hh, hhead, htail, hne, _, hslots⟩ := hinv
  have hemp := hne (by simp)
  obtain ⟨e0, he0, hv0, hp0⟩ := hslots 0 x (by simp)
  rw [Nat.add_zero, Nat.mod_eq_of_lt hh] at he0
  have hM : 0 < maxprocs := by omega
  have ht : (h + (x :: xs).length) % maxprocs < maxprocs := Nat.mod_lt _ hM
  have hht : h ≠ (h + (x :: xs).length) % maxprocs := by
    have := @mod_ne_of_lt h (h + (x :: xs).length) maxprocs (by simp) (by simp; omega)
    rwa [Nat.mod_eq_of_lt hh] at this
  have hw1 : maxprocs = 10 ∨ (h + (x :: xs).length) % maxprocs + 1 < maxprocs := by
    rcases hw with hw | hw
    · exact Or.inl hw
    · right
      rw [Nat.mod_eq_of_lt (by simp; omega)]
      simp; omega
  refine ⟨_, switchProc_eq hl hhead htail hh ht hht hemp he0 hw1, ?_⟩
  have hidx : ∀ j, ((h + 1) % maxprocs + j) % maxprocs = (h + (j + 1)) % maxprocs := by
    intro j
    rw [Nat.mod_add_mod]
    congr 1
    omega
  refine ⟨by simpa using hl, Nat.mod_lt _ hM, rfl, ?_, fun _ => hemp, ?_, ?_⟩
  · simp only [List.length_cons, List.length_append, List.length_nil]
    rw [Nat.mod_add_mod, hidx]
    congr 2
  · intro hnil
    simp at hnil
  · intro j p hj
    rw [hidx]
    rcases Nat.lt_trichotomy j xs.length with hlt | heq | hgt
    · rw [List.getElem?_append_left hlt] at hj
      obtain ⟨e, he, hv, hp⟩ := hslots (j + 1) p (by simpa using hj)
      refine ⟨e, ?_, hv, hp⟩
      have h1 : (h + (x :: xs).length) % maxprocs ≠ (h + (j + 1)) % maxprocs :=
        fun hc => mod_ne_of_lt (by simp; omega) (by simp; omega) hc.symm
      have h2 : h ≠ (h + (j + 1)) % maxprocs := by
        have := @mod_ne_of_lt h (h + (j + 1)) maxprocs (by omega) (by omega)
        rwa [Nat.mod_eq_of_lt hh] at this
      simp only []
      rw [List.getElem?_set_ne h1, List.getElem?_set_ne h2]
      exact he
    · rw [List.getElem?_append_right (le_of_eq heq.symm), heq, Nat.sub_self] at hj
      have hpx : x = p := by simpa using hj
      refine ⟨{ e0 with valid := 1 }, ?_, by simp, hpx ▸ hp0⟩
      have hlen : (h + (x :: xs).length) % maxprocs <
          (s.proctab.set h { e0 with valid := 0 }).length := by
        rw [List.length_set, hl]
        exact ht
      rw [heq]
      exact List.getElem?_set_self hlen
    · rw [List.getElem?_append_right (by omega)] at hj
      obtain ⟨hlt, _⟩ := List.getElem?_eq_some.mp hj
      simp at hlt
      omega

/-! ## FIFO and round robin: admission -/

/-- Closed form of `enterQueue` when the ring is not full. -/
theorem enterQueue_eq {maxprocs t : Nat} {p : Int} {s : Sched} {et : Proc}
    (hl : s.proctab.length = maxprocs) (htail : s.tail = t) (ht : t < maxprocs)
    (hfree : ¬ ((t : Int) = s.head ∧ s.isEmpty = 0)) (hslot : s.proctab[t]? = some et) :
    enterQueue p s = .ok (1,
      { s with isEmpty := 0,
               proctab := s.proctab.set t { et with valid := 1, pid := p },
               tail := (((t + 1) % maxprocs : Nat) : Int) }) := by
  have hp : (t : Int).tmod (maxprocs : Int) = (t : Int) := by
    rw [natCast_tmod, Nat.mod_eq_of_lt ht]
  unfold enterQueue
  simp only [htail, MAXPROCS, hl, hp, hfree, if_false]
  rw [wr_mk _ hslot]
  simp only [List.length_set, hl, natCast_succ_tmod]

theorem ringSeq_init {maxprocs : Nat} (hM : 0 < maxprocs) :
    RingSeq maxprocs 0 [] (InitSched (boot maxprocs)) := by
  refine ⟨by simp [InitSched, boot], hM, rfl, ?_, fun h => absurd rfl h,
    fun _ => by simp [InitSched], ?_⟩
  · simp [InitSched, Nat.mod_eq_of_lt hM]
  · intro j p hj
    simp at hj

theorem enterQueue_appends {maxprocs h : Nat} {p : Int} {xs : List Int} {s : Sched}
    (hinv : RingSeq maxprocs h xs s) (hn : xs.length < maxprocs) :
    ∃ s1, enterQueue p s = .ok (1, s1) ∧ RingSeq maxprocs h (xs ++ [p]) s1 := by
  obtain ⟨hl, hh, hhead, htail, hne, hem, hslots⟩ := hinv
  have hM : 0 < maxprocs := by omega
  have ht : (h + xs.length) % maxprocs < maxprocs := Nat.mod_lt _ hM
  have hfree : ¬ ((((h + xs.length) % maxprocs : Nat) : Int) = s.head ∧ s.isEmpty = 0) := by
    rintro ⟨h1, h2⟩
    by_cases hx : xs = []
    · exact hem hx h2
    · have hpos : 0 < xs.length := List.length_pos.mpr hx
      have := @mod_ne_of_lt h (h + xs.length) maxprocs (by omega) (by omega)
      rw [Nat.mod_eq_of_lt hh] at this
      rw [hhead] at h1
      exact this (by exact_mod_cast h1.symm)
  obtain ⟨et, het⟩ : ∃ et, s.proctab[(h + xs.length) % maxprocs]? = some et :=
    ⟨_, List.getElem?_eq_getElem (by rw [hl]; exact ht)⟩
  refine ⟨_, enterQueue_eq hl htail ht hfree het, ?_⟩
  refine ⟨by simpa using hl, hh, hhead, ?_, fun _ => rfl, ?_, ?_⟩
  · simp only [List.length_append, List.length_cons, List.length_nil]
    rw [Nat.mod_add_mod]
    congr 2
  · intro hnil
    simp at hnil
  · intro j q hj
    rcases Nat.lt_trichotomy j xs.length with hlt | heq | hgt
    · rw [List.getElem?_append_left hlt] at hj
      obtain ⟨e, he, hv, hp⟩ := hslots j q hj
      refine ⟨e, ?_, hv, hp⟩
      have h1 : (h + xs.length) % maxprocs ≠ (h + j) % maxprocs :=
        fun hc => mod_ne_of_lt (by omega) (by omega) hc.symm
      simp only []
      rw [List.getElem?_set_ne h1]
      exact he
    · rw [List.getElem?_append_right (le_of_eq heq.symm), heq, Nat.sub_self] at hj
      have hpx : p = q := by simpa using hj
      refine ⟨{ et with valid := 1, pid := p }, ?_, by simp, hpx⟩
      rw [heq]
      exact List.getElem?_set_self (by rw [hl]; exact ht)
    · rw [List.getElem?_append_right (by omega)] at hj
      obtain ⟨hlt, _⟩ := List.getElem?_eq_some.mp hj
      simp at hlt
      omega

theorem runCalls_append (pol : Policy) (cs ds : List Call) (s s1 s2 : Sched)
    (rs qs : List Int) (h1 : runCalls pol cs s = .ok (rs, s1))
    (h2 : runCalls pol ds s1 = .ok (qs, s2)) :
    runCalls pol (cs ++ ds) s = .ok (rs ++ qs, s2) := by
  induction cs generalizing s rs with
  | nil =>
    simp only [runCalls] at h1
    cases h1
    simpa using h2
  | cons c cs ih =>
    simp only [runCalls] at h1
    simp only [List.cons_append, runCalls]
    split at h1
    · cases h1
    · rename_i r s3 hstep
      split at h1
      · cases h1
      · rename_i rs1 s4 hrun
        cases h1
        have hih := ih s3 rs1 hrun
        simp only [List.append_eq] at hih ⊢
        rw [hih]
        rfl

/-- Admitting the pids `ps` one after the other through `StartingProc`, under
FIFO or round robin, appends them to the ring as long as it does not overflow;
every call returns 1. -/
theorem admission_appends {maxprocs h : Nat} {pol : Policy}
    (hpol : pol = .FIFO ∨ pol = .ROUNDROBIN) (ps : List Int) :
    ∀ (xs : List Int) (s : Sched), RingSeq maxprocs h xs s →
      xs.length + ps.length ≤ maxprocs →
      ∃ s1, runCalls pol (ps.map Call.start) s = .ok (List.replicate ps.length 1, s1) ∧
        RingSeq maxprocs h (xs ++ ps) s1 := by
  induction ps with
  | nil =>
    intro xs s hinv _
    exact ⟨s, rfl, by simpa using hinv⟩
  | cons p ps ih =>
    intro xs s hinv hlen
    simp only [List.length_cons] at hlen
    obtain ⟨s1, hs1, hinv1⟩ := @enterQueue_appends maxprocs h p xs s hinv (by omega)
    obtain ⟨s2, hs2, hinv2⟩ := ih (xs ++ [p]) s1 hinv1 (by simp; omega)
    refine ⟨s2, ?_, by simpa using hinv2⟩
    have hstep : step pol (Call.start p) s = .ok (1, s1) := by
      rcases hpol with rfl | rfl <;> exact hs1
    simp only [List.map_cons, runCalls, hstep, hs2, List.length_cons, List.replicate_succ]

/-! ## Round robin: the sequence of decisions -/

theorem getElem?_rot1 (x : Int) (xs : List Int) (i : Nat) (hi : i < xs.length + 1) :
    (xs ++ [x])[i]? = (x :: xs)[(i + 1) % (xs.length + 1)]? := by
  have h := @List.getElem?_rotate Int (x :: xs) 1 i (by simpa using hi)
  rw [List.rotate_cons_succ, List.rotate_zero] at h
  simpa using h

/-- One round-robin decision: `switchProc` rotates, then the pid at the new
`head` is returned. -/
theorem schedProc_rr_step {maxprocs h : Nat} {x : Int} {xs : List Int} {s : Sched}
    (hinv : RingSeq maxprocs h (x :: xs) s) (hn : xs.length + 1 < maxprocs)
    (hw : maxprocs = 10 ∨ h + xs.length + 2 < maxprocs) :
    ∃ s1, SchedProc .ROUNDROBIN s = .ok ((x :: xs).getD (1 % (xs.length + 1)) 0, s1) ∧
      RingSeq maxprocs ((h + 1) % maxprocs) (xs ++ [x]) s1 := by
  obtain ⟨s1, hsw, hinv1⟩ := switchProc_rotates hinv hn hw
  refine ⟨s1, ?_, hinv1⟩
  obtain ⟨_, _, hhead, _, _, _, hslots⟩ := hinv1
  have hq : (xs ++ [x])[0]? = some ((x :: xs).getD (1 % (xs.length + 1)) 0) := by
    rw [getElem?_rot1 x xs 0 (by omega), List.getD_eq_getElem?_getD]
    have hlt : (0 + 1) % (xs.length + 1) < (x :: xs).length := by
      simpa using Nat.mod_lt _ (Nat.succ_pos xs.length)
    rw [List.getElem?_eq_getElem hlt]
    simp
  obtain ⟨e, he, hv, hp⟩ := hslots 0 _ hq
  rw [Nat.add_zero, Nat.mod_mod] at he
  have hrd : rd s1 s1.head = .ok e := by
    rw [hhead]
    exact rd_nat he
  simp only [SchedProc, hsw, hrd, ne_eq, one_ne_zero, not_false_eq_true, if_true, hv, hp]

theorem sched_rr_iter {maxprocs : Nat} (k : Nat) :
    ∀ (h : Nat) (ys : List Int) (s : Sched), RingSeq maxprocs h ys s →
      1 ≤ ys.length → ys.length < maxprocs →
      (maxprocs = 10 ∨ h + ys.length + k < maxprocs) →
      ∃ s1, runCalls .ROUNDROBIN (List.replicate k Call.sched) s =
        .ok ((List.range k).map (fun j => ys.getD ((j + 1) % ys.length) 0), s1) := by
  induction k with
  | zero =>
    intro h ys s _ _ _ _
    exact ⟨s, rfl⟩
  | succ k ih =>
    intro h ys s hinv h1 h2 hw
    cases ys with
    | nil => simp at h1
    | cons x xs =>
      simp only [List.length_cons] at h1 h2 hw
      obtain ⟨s1, hstep, hinv1⟩ := schedProc_rr_step hinv h2 (by omega)
      have hw1 : maxprocs = 10 ∨ (h + 1) % maxprocs + (xs ++ [x]).length + k < maxprocs := by
        rcases hw with hw | hw
        · exact Or.inl hw
        · right
          rw [Nat.mod_eq_of_lt (by omega)]
          simp; omega
      obtain ⟨s2, hrun⟩ := ih _ (xs ++ [x]) s1 hinv1 (by simp) (by simpa using h2) hw1
      refine ⟨s2, ?_⟩
      have hstep1 : step .ROUNDROBIN Call.sched s = .ok (_, s1) := hstep
      simp only [List.replicate_succ, runCalls, hstep1, hrun, List.range_succ_eq_map,
        List.map_cons, List.map_map, List.length_cons]
      rw [Nat.zero_add]
      refine congrArg (fun l => Except.ok (_ :: l, s2)) ?_
      apply List.map_congr_left
      intro j _
      simp only [Function.comp, List.length_append, List.length_cons, List.length_nil,
        Nat.zero_add, Nat.succ_eq_add_one]
      rw [List.getD_eq_getElem?_getD, List.getD_eq_getElem?_getD,
        getElem?_rot1 x xs _ (Nat.mod_lt _ (Nat.succ_pos _)), Nat.mod_add_mod]

/-- C1 (amended): under round robin, after `InitSched` and the admission of the
pids `p1..pn` (`1 <= n < MAXPROCS`, every `StartingProc` returning 1), the k-th
call of `SchedProc` returns `p_((k mod n)+1)`: the ring is rotated before the
head is read, so the first decision is `p2` (or `p1` when `n = 1`).  This holds
for every number of calls on a table of ten entries, and on any table as long as
`n + k < MAXPROCS`.  The list below holds the return values of the `n`
admissions followed by those of `k` decisions; entry `j` (from 0) of the
decisions is `pids[(j + 1) mod n]`. -/
theorem roundrobin_sequence (maxprocs : Nat) (pids : List Int) (k : Nat)
    (h1 : 1 ≤ pids.length) (h2 : pids.length < maxprocs)
    (hw : maxprocs = 10 ∨ pids.length + k < maxprocs) :
    ∃ s1, runCalls .ROUNDROBIN (pids.map Call.start ++ List.replicate k Call.sched)
        (InitSched (boot maxprocs)) =
      .ok (List.replicate pids.length 1 ++
        (List.range k).map (fun j => pids.getD ((j + 1) % pids.length) 0), s1) := by
  have hM : 0 < maxprocs := by omega
  obtain ⟨s0, hadm, hinv⟩ := @admission_appends maxprocs 0 .ROUNDROBIN (Or.inr rfl) pids []
    _ (ringSeq_init hM) (by simp; omega)
  rw [List.nil_append] at hinv
  obtain ⟨s1, hrun⟩ := sched_rr_iter k 0 pids s0 hinv h1 h2 (by omega)
  exact ⟨s1, runCalls_append _ _ _ _ _ _ _ _ hadm hrun⟩

theorem roundrobin_sequence_witness :
    (1 ≤ ([1, 2, 3] : List Int).length ∧ ([1, 2, 3] : List Int).length < 10 ∧
      (10 = 10 ∨ ([1, 2, 3] : List Int).length + 7 < 10)) ∧
    ∃ s1, runCalls .ROUNDROBIN
        [.start 1, .start 2, .start 3, .sched, .sched, .sched, .sched, .sched, .sched, .sched]
        (InitSched (boot 10)) = .ok ([1, 1, 1, 2, 3, 1, 2, 3, 1, 2], s1) :=
  ⟨by decide, roundrobin_sequence 10 [1, 2, 3] 7 (by decide) (by decide) (Or.inl rfl)⟩

/-- C1 (counterexample): on the table of ten entries, after admitting 1, 2, 3 the
first three round-robin decisions are 2, 3, 1 and not 1, 2, 3. -/
theorem roundrobin_first_decision_is_second_pid :
    results (runCalls .ROUNDROBIN
      [.start 1, .start 2, .start 3, .sched, .sched, .sched]
      (InitSched (boot 10))) = some [1, 1, 1, 2, 3, 1] ∧
    results (runCalls .ROUNDROBIN
      [.start 1, .start 2, .start 3, .sched, .sched, .sched]
      (InitSched (boot 10))) ≠ some [1, 1, 1, 1, 2, 3] := by
  decide

/-! ## Removal of a pid that is not in the table -/

theorem wr_length {s s1 : Sched} {i : Int} {f : Proc → Proc} (h : wr s i f = .ok s1) :
    s1.proctab.length = s.proctab.length := by
  obtain ⟨e, _, rfl⟩ := wr_ok h
  simp

theorem distributeCPU_length (s : Sched) :
    (distributeCPU s).proctab.length = s.proctab.length := by
  simp [distributeCPU]

theorem runProc_length {s s1 : Sched} {r : Int} (h : runProc s = .ok (r, s1)) :
    s1.proctab.length = s.proctab.length := by
  unfold runProc at h
  split at h
  · cases h
  · split at h
    · cases h
    · split_ifs at h
      all_goals
        simp only at h
        split at h
        · cases h
        · rename_i s2 hs2
          cases h
          rw [wr_length hs2]
          try simp [resetOverflow]

theorem MyRequestCPUrate_length {s s1 : Sched} {p n r : Int}
    (h : MyRequestCPUrate p n s = .ok (r, s1)) : s1.proctab.length = s.proctab.length := by
  unfold MyRequestCPUrate at h
  split at h
  · cases h
  · split_ifs at h
    all_goals first
      | (cases h; rfl)
      | (split at h
         · cases h
         · rename_i s2 hs2
           cases h
           first
             | exact wr_length hs2
             | (rw [distributeCPU_length]; exact wr_length hs2))

theorem step_length_proportional {c : Call} {r : Int} {s s1 : Sched}
    (h : step .PROPORTIONAL c s = .ok (r, s1)) : s1.proctab.length = s.proctab.length := by
  cases c with
  | start p =>
    simp only [step, StartingProc] at h
    split at h
    · cases h
    · rename_i s2 hs2
      cases h
      rw [distributeCPU_length]; exact wr_length hs2
  | finish p =>
    simp only [step, EndingProc] at h
    split at h
    · cases h
    · rename_i s2 hs2
      cases h
      rw [distributeCPU_length]; exact wr_length hs2
  | sched =>
    simp only [step, SchedProc] at h
    split at h
    · cases h
    · rename_i i s2 hs2
      split at h
      · cases h
      · split_ifs at h <;> cases h <;> exact runProc_length hs2
  | request p n => exact MyRequestCPUrate_length h

theorem reach_length_proportional {maxprocs : Nat} {s : Sched}
    (hr : Reach .PROPORTIONAL maxprocs s) : s.proctab.length = maxprocs := by
  induction hr with
  | init => simp [InitSched, boot]
  | call _ _ hstep ih => rw [step_length_proportional hstep]; exact ih

theorem exitQueue_absent {s : Sched} {p : Int} (h0 : 0 ≤ s.head)
    (h1 : s.head < s.proctab.length)
    (habs : ∀ e ∈ s.proctab, e.valid ≠ 0 → e.pid ≠ p) : exitQueue p s = .ok (0, s) := by
  have hlt : s.head.toNat < s.proctab.length := by omega
  have hget : s.proctab[s.head.toNat]? = some (s.proctab[s.head.toNat]) :=
    List.getElem?_eq_getElem hlt
  have hrd : rd s s.head = .ok (s.proctab[s.head.toNat]) := by
    have := rd_nat hget
    rwa [Int.toNat_of_nonneg h0] at this
  have hmem : s.proctab[s.head.toNat] ∈ s.proctab := List.getElem_mem hlt
  have hc : (s.proctab[s.head.toNat]).valid = 0 ∨ (s.proctab[s.head.toNat]).pid ≠ p := by
    by_cases hv : (s.proctab[s.head.toNat]).valid = 0
    · exact Or.inl hv
    · exact Or.inr (habs _ hmem hv)
  simp only [exitQueue, hrd, hc, if_true]

/-- The branches of `EndingProc` on a pid that may be absent: under FIFO and
round robin, in every reachable state, `EndingProc(p)` returns 0 and changes
nothing whenever no valid slot holds pid `p`; under the proportional policy, in
every reachable state, `EndingProc(p)` returns 1 for every `p` in `1..MAXPROCS`,
whether or not a valid slot holds `p`. -/
theorem endingProc_absent_pid (maxprocs : Nat) (pol : Policy) (s : Sched) (p : Int)
    (hM : 0 < maxprocs) (hr : Reach pol maxprocs s) :
    (pol = .FIFO ∨ pol = .ROUNDROBIN →
      (∀ e ∈ s.proctab, e.valid ≠ 0 → e.pid ≠ p) → EndingProc pol p s = .ok (0, s)) ∧
    (pol = .PROPORTIONAL → 1 ≤ p → p ≤ maxprocs →
      ∃ s1, EndingProc pol p s = .ok (1, s1)) := by
  constructor
  · intro hpol habs
    obtain ⟨hl, hh0, hh1, _, _⟩ := reach_ringWF hM hpol hr
    have := exitQueue_absent hh0 (by rw [hl]; exact hh1) habs
    rcases hpol with rfl | rfl <;> exact this
  · intro hpol hp1 hp2
    subst hpol
    have hl := reach_length_proportional hr
    have hlt : (p - 1).toNat < s.proctab.length := by omega
    obtain ⟨s2, hwr⟩ : ∃ s2, wr s (p - 1) (fun e =>
        { e with pid := p, valid := 0, stride := 0, runnable := 0, requested := 0,
                 percent := 0 }) = .ok s2 := by
      have hwr := @wr_nat s (p - 1).toNat _ (fun e =>
        { e with pid := p, valid := 0, stride := 0, runnable := 0, requested := 0,
                 percent := 0 }) (List.getElem?_eq_getElem hlt)
      rw [Int.toNat_of_nonneg (by omega)] at hwr
      exact ⟨_, hwr⟩
    exact ⟨distributeCPU s2, by simp only [EndingProc, hwr]⟩

theorem endingProc_absent_pid_witness :
    ((0 < 10) ∧ Reach .FIFO 10 (InitSched (boot 10)) ∧
      ∀ e ∈ (InitSched (boot 10)).proctab, e.valid ≠ 0 → e.pid ≠ 1) ∧
    EndingProc .FIFO 1 (InitSched (boot 10)) = .ok (0, InitSched (boot 10)) :=
  ⟨⟨by decide, Reach.init, by decide⟩,
    (endingProc_absent_pid 10 .FIFO (InitSched (boot 10)) 1 (by decide) Reach.init).1
      (Or.inl rfl) (by decide)⟩

/-- C7: after `InitSched` and `StartingProc(1)` the only valid slot holds pid 1.
Under the proportional policy `EndingProc(2)` then returns 1, not 0; under the
arbitrary policy the search loop of `EndingProc(2)` finds nothing and control
reaches `if(!returnVal)` with `returnVal` never assigned.  Under LIFO, directly
after `InitSched` (no valid slot), `EndingProc(1)` reads `proctab[-1]`.  Under
FIFO and round robin `EndingProc(2)` returns 0. -/
theorem endingProc_absent_pid_not_refused :
    (final (runCalls .PROPORTIONAL [.start 1] (InitSched (boot 10)))).map validPids
      = some [1] ∧
    results (runCalls .PROPORTIONAL [.start 1, .finish 2] (InitSched (boot 10)))
      = some [1, 1] ∧
    (final (runCalls .ARBITRARY [.start 1] (InitSched (boot 10)))).map validPids
      = some [1] ∧
    runCalls .ARBITRARY [.start 1, .finish 2] (InitSched (boot 10)) = .error .unset ∧
    validPids (InitSched (boot 10)) = [] ∧
    EndingProc .LIFO 1 (InitSched (boot 10)) = .error .outOfBounds ∧
    results (runCalls .FIFO [.start 1, .finish 2] (InitSched (boot 10))) = some [1, 0] ∧
    results (runCalls .ROUNDROBIN [.start 1, .finish 2] (InitSched (boot 10)))
      = some [1, 0] := by
  refine ⟨by decide, by decide, by decide, rfl, by decide, rfl, by decide, by decide⟩

/-! ## Failing calls of the queue procedures -/

theorem enterQueue_failure {p : Int} {s s1 : Sched} (h : enterQueue p s = .ok (0, s1)) :
    s1 = s := by
  unfold enterQueue at h
  split_ifs at h
  · cases h; rfl
  · simp only at h
    split at h
    · cases h
    · simp at h

theorem exitQueue_failure {p : Int} {s s1 : Sched} (h : exitQueue p s = .ok (0, s1)) :
    s1 = s := by
  unfold exitQueue at h
  split at h
  · cases h
  · split_ifs at h
    · cases h; rfl
    · split at h
      · cases h
      · simp only at h
        split_ifs at h <;> simp at h

theorem enterStack_failure {p : Int} {s s1 : Sched} (h : enterStack p s = .ok (0, s1)) :
    s1 = s := by
  unfold enterStack at h
  split_ifs at h
  · cases h; rfl
  · simp only at h
    split at h
    · cases h
    · simp at h

/-- Under FIFO and round robin a `StartingProc` or `EndingProc` call that
returns 0 leaves the state as it was, and so does a failing `StartingProc`
under LIFO. -/
theorem queue_failure_keeps_state (pol : Policy) (p : Int) (s s1 : Sched) :
    (pol = .FIFO ∨ pol = .ROUNDROBIN →
      (StartingProc pol p s = .ok (0, s1) → s1 = s) ∧
      (EndingProc pol p s = .ok (0, s1) → s1 = s)) ∧
    (StartingProc .LIFO p s = .ok (0, s1) → s1 = s) := by
  refine ⟨?_, enterStack_failure⟩
  rintro (rfl | rfl) <;> exact ⟨enterQueue_failure, exitQueue_failure⟩

/-! ## Evaluations for the ring procedures -/

/-- C11: on a table of twelve entries under round robin, with no pid started
while a valid slot holds it, `StartingProc(1)`, ten decisions, `StartingProc(2)`
and fourteen decisions end with three valid slots, 0, 1 and 9, of which slots 1
and 9 both hold pid 2.  When `tail` wraps to 0 in `switchProc` (twelfth of the
fourteen decisions) the moved process, pid 2, is written to slot 9 instead of
slot 11; two decisions later `head` is at slot 11, which is invalid and holds a
stale copy of pid 2, and `switchProc` copies it to slot 1 and marks it valid. -/
theorem roundrobin_twelve_duplicate_pid :
    freshStarts .ROUNDROBIN
      ([.start 1] ++ List.replicate 10 .sched ++ [.start 2] ++ List.replicate 14 .sched)
      (InitSched (boot 12)) = true ∧
    (final (runCalls .ROUNDROBIN
      ([.start 1] ++ List.replicate 10 .sched ++ [.start 2] ++ List.replicate 14 .sched)
      (InitSched (boot 12)))).map
        (fun s => (validSlots s, validPids s)) = some ([0, 1, 9], [1, 2, 2]) := by
  decide

/-- C12: on a table of twelve entries under round robin, after
`StartingProc(1)` and eleven `SchedProc` calls the only valid slot is slot 9
while `head = 11` and `tail = 0`; the eleventh decision is 0 although process 1
is live. -/
theorem roundrobin_twelve_not_contiguous :
    results (runCalls .ROUNDROBIN ([.start 1] ++ List.replicate 11 .sched)
      (InitSched (boot 12))) = some [1, 1, 1, 1, 1, 1, 1, 1, 1, 1, 1, 0] ∧
    (final (runCalls .ROUNDROBIN ([.start 1] ++ List.replicate 11 .sched)
      (InitSched (boot 12)))).map
        (fun s => (validSlots s, s.head, s.tail, s.isEmpty, decide (RingContiguous s)))
      = some ([9], 11, 0, 0, false) := by
  decide

/-- C13: under LIFO, after two admissions and the two removals newest first
(all four calls return 1) the state has `head = tail = 0` but `isEmpty = 0`, and
after one admission and its removal the next `StartingProc` returns 0. -/
theorem lifo_drain_leaves_isEmpty_clear :
    results (runCalls .LIFO [.start 1, .start 2, .finish 2, .finish 1]
      (InitSched (boot 10))) = some [1, 1, 1, 1] ∧
    (final (runCalls .LIFO [.start 1, .start 2, .finish 2, .finish 1]
      (InitSched (boot 10)))).map (fun s => (s.head, s.tail, s.isEmpty, validSlots s))
      = some (0, 0, 0, []) ∧
    results (runCalls .LIFO [.start 1, .finish 1, .start 2] (InitSched (boot 10)))
      = some [1, 1, 0] := by
  decide

/-- C15: under LIFO on the table of ten entries, ten admissions of the pids
1..10 all return 1 and leave `head = 0`; `SchedProc` and `EndingProc(10)` then
read `proctab[-1]`.  After nine admissions `SchedProc` returns 9 and
`EndingProc(9)` returns 1. -/
theorem lifo_full_table_reads_before_table :
    (final (runCalls .LIFO
      [.start 1, .start 2, .start 3, .start 4, .start 5, .start 6, .start 7, .start 8,
        .start 9, .start 10] (InitSched (boot 10)))).map
        (fun s => (s.head, validSlots s, SchedProc .LIFO s, EndingProc .LIFO 10 s))
      = some (0, [0, 1, 2, 3, 4, 5, 6, 7, 8, 9],
          .error .outOfBounds, .error .outOfBounds) ∧
    (final (runCalls .LIFO
      [.start 1, .start 2, .start 3, .start 4, .start 5, .start 6, .start 7, .start 8,
        .start 9] (InitSched (boot 10)))).map
        (fun s => (retval (SchedProc .LIFO s), retval (EndingProc .LIFO 9 s)))
      = some (some 9, some 1) := by
  refine ⟨rfl, rfl⟩

/-- C16: on the table of ten entries, with the ring full (pids 1..10 admitted
under round robin, all ten admissions returning 1), `switchProc` returns 1 and
leaves the state as it is, so the head-to-tail sequence is still 1, 2, ..., 10
and every `SchedProc` returns 1.  On a table of four entries the first
`SchedProc` after admitting 1, 2, 3 writes `proctab[9]`. -/
theorem switchProc_full_ring_no_rotation :
    (final (runCalls .ROUNDROBIN
      [.start 1, .start 2, .start 3, .start 4, .start 5, .start 6, .start 7, .start 8,
        .start 9, .start 10] (InitSched (boot 10)))).map
        (fun s => (s.head, s.tail, s.isEmpty, validPids s,
          (switchProc s).toOption.map
            (fun r => (r.1, r.2.head, r.2.tail, r.2.isEmpty, validPids r.2)))) =
      some (0, 0, 0, [1, 2, 3, 4, 5, 6, 7, 8, 9, 10],
        some (1, 0, 0, 0, [1, 2, 3, 4, 5, 6, 7, 8, 9, 10])) ∧
    results (runCalls .ROUNDROBIN
      [.start 1, .start 2, .start 3, .start 4, .start 5, .start 6, .start 7, .start 8,
        .start 9, .start 10, .sched, .sched, .sched] (InitSched (boot 10))) =
      some [1, 1, 1, 1, 1, 1, 1, 1, 1, 1, 1, 1, 1] ∧
    runCalls .ROUNDROBIN [.start 1, .start 2, .start 3, .sched] (InitSched (boot 4)) =
      .error .outOfBounds := by
  refine ⟨rfl, by decide, rfl⟩

/-! ## Evaluations for the proportional selection -/

/-- C18: on a table whose only runnable slot (slot 0, valid) has `passValue`
equal to the largest 32-bit integer, the search loop of `runProc` never assigns
`minIndex` (its test is `passValue < min` with `min` starting at `MAX_INT`), and
`runProc` goes on to index `proctab` with it. -/
theorem runProc_all_max_unset :
    runProcScan
      [{ valid := 1, pid := 1, requested := 0, stride := 1000, percent := 0, runnable := 1,
         passValue := 2147483647 }, zeroProc] 0 MAX_INT none = (MAX_INT, none) ∧
    runProc
      { proctab :=
          [{ valid := 1, pid := 1, requested := 0, stride := 1000, percent := 0, runnable := 1,
             passValue := 2147483647 }, zeroProc],
        head := 0, tail := 0, isEmpty := 1, currCPURequested := 0 } = .error .unset := by
  refine ⟨rfl, rfl⟩

/-- C19: after `StartingProc(1)`, a request of 50 and a request of -5 by pid 1
(both returning 0) the slot of pid 1 is runnable with stride -20000 and
`passValue` 0; `SchedProc` then returns 1 and leaves its `passValue` at -20000,
smaller than before. -/
theorem sched_lowers_passValue :
    (final (runCalls .PROPORTIONAL [.start 1, .request 1 50, .request 1 (-5)]
      (InitSched (boot 10)))).map
        (fun s => (s.proctab.take 1).map (fun e => (e.runnable, e.stride, e.passValue)))
      = some [(1, -20000, 0)] ∧
    results (runCalls .PROPORTIONAL [.start 1, .request 1 50, .request 1 (-5), .sched]
      (InitSched (boot 10))) = some [1, 0, 0, 1] ∧
    (final (runCalls .PROPORTIONAL [.start 1, .request 1 50, .request 1 (-5), .sched]
      (InitSched (boot 10)))).map
        (fun s => (s.proctab.take 1).map (fun e => (e.runnable, e.stride, e.passValue)))
      = some [(1, -20000, -20000)] := by
  decide

/-! ## `distributeCPU` -/

theorem wrap32_eq_self {x : Int} (h1 : -2147483648 ≤ x) (h2 : x ≤ 2147483647) : wrap32 x = x := by
  unfold wrap32; omega

theorem wrap32_wrap32_add (a b : Int) : wrap32 (wrap32 a + b) = wrap32 (a + b) := by
  unfold wrap32; omega

theorem wrap32_idem (a : Int) : wrap32 (wrap32 a) = wrap32 a := by
  unfold wrap32; omega

theorem sumRequested_foldl (tab : List Proc) :
    ∀ acc : Int, wrap32 acc = acc →
      tab.foldl (fun acc e =>
        if e.valid ≠ 0 ∧ e.requested ≠ 0 then wrap32 (acc + e.percent) else acc) acc
      = wrap32 (acc + sumPercent tab) := by
  induction tab with
  | nil => intro acc h; simp [sumPercent, h]
  | cons e es ih =>
    intro acc h
    by_cases hc : e.valid ≠ 0 ∧ e.requested ≠ 0
    · rw [List.foldl_cons, if_pos hc, ih _ (wrap32_idem _), wrap32_wrap32_add]
      simp [sumPercent, hc, add_assoc]
    · rw [List.foldl_cons, if_neg hc, ih _ h]
      simp [sumPercent, hc]

theorem sumRequested_eq (tab : List Proc) : sumRequested tab = wrap32 (sumPercent tab) := by
  unfold sumRequested
  rw [sumRequested_foldl tab 0 (by decide), zero_add]

theorem countUnrequested_foldl (tab : List Proc) :
    ∀ acc : Int,
      tab.foldl (fun acc e => if e.valid ≠ 0 ∧ e.requested = 0 then acc + 1 else acc) acc
      = acc + (numUnrequested tab : Int) := by
  induction tab with
  | nil => intro acc; simp [numUnrequested]
  | cons e es ih =>
    intro acc
    by_cases hc : e.valid ≠ 0 ∧ e.requested = 0
    · rw [List.foldl_cons, if_pos hc, ih]
      simp [numUnrequested, hc]; ring
    · rw [List.foldl_cons, if_neg hc, ih]
      simp [numUnrequested, hc]

theorem countUnrequested_eq (tab : List Proc) :
    countUnrequested tab = (numUnrequested tab : Int) := by
  unfold countUnrequested
  rw [countUnrequested_foldl tab 0, zero_add]

theorem distributeCPU_share (u S : Int) (hu : 0 ≤ u) :
    (if u > 0 then (if 100 - S ≥ u then (100 - S).tdiv u else 0) else 0) =
      if 0 < u ∧ u ≤ 100 - S then (100 - S) / u else 0 := by
  by_cases h1 : 0 < u
  · by_cases h2 : u ≤ 100 - S
    · simp only [gt_iff_lt, h1, if_true, ge_iff_le, h2, and_self]
      exact Int.tdiv_eq_ediv (by omega) hu
    · simp [h1, h2]
  · simp [h1]

/-- C17 (amended): for every process-table state in which the sum `S` of `percent`
over the valid requested slots satisfies `-2147483547 <= S <= 2147483647` (so
that `S` and `100 - S` are 32-bit integers), after `distributeCPU`:
`currCPURequested = S`; every valid requested slot is runnable; with `u` the
number of valid unrequested slots, if `u > 0` and `100 - S >= u` every valid
unrequested slot has `runnable = 1` and `stride = L / floor((100 - S) / u)`,
otherwise every valid unrequested slot has `runnable = 0`; an invalid slot is
unchanged, and no `pid`, `valid`, `requested`, `percent` or `passValue` field
changes. -/
theorem distributeCPU_spec (s : Sched)
    (hlo : -2147483547 ≤ sumPercent s.proctab) (hhi : sumPercent s.proctab ≤ 2147483647) :
    (distributeCPU s).currCPURequested = sumPercent s.proctab ∧
    (distributeCPU s).proctab.length = s.proctab.length ∧
    ∀ (i : Nat) (e : Proc), s.proctab[i]? = some e →
      ∃ e1 : Proc, (distributeCPU s).proctab[i]? = some e1 ∧
        e1.pid = e.pid ∧ e1.valid = e.valid ∧ e1.requested = e.requested ∧
        e1.percent = e.percent ∧ e1.passValue = e.passValue ∧
        (e.valid = 0 → e1 = e) ∧
        (e.valid ≠ 0 → e.requested ≠ 0 → e1.runnable = 1) ∧
        (e.valid ≠ 0 → e.requested = 0 →
          if 0 < numUnrequested s.proctab ∧
              (numUnrequested s.proctab : Int) ≤ 100 - sumPercent s.proctab then
            e1.runnable = 1 ∧
            e1.stride = L / ((100 - sumPercent s.proctab) / (numUnrequested s.proctab : Int))
          else e1.runnable = 0) := by
  have hcur : sumRequested s.proctab = sumPercent s.proctab := by
    have h0 : (-2147483648 : Int) ≤ sumPercent s.proctab := le_trans (by decide) hlo
    rw [sumRequested_eq, wrap32_eq_self h0 hhi]
  have hnum : wrap32 (MAX_CPU_REQUEST - sumPercent s.proctab) = 100 - sumPercent s.proctab := by
    have h1 : (-2147483648 : Int) ≤ 100 - sumPercent s.proctab := by linarith
    have h2 : 100 - sumPercent s.proctab ≤ (2147483647 : Int) := by linarith
    exact wrap32_eq_self h1 h2
  refine ⟨by simp [distributeCPU, hcur], by simp [distributeCPU], ?_⟩
  intro i e he
  simp only [distributeCPU, hcur, hnum, countUnrequested_eq, List.getElem?_map, he,
    Option.map_some', distributeCPU_share _ _ (Int.natCast_nonneg _)]
  refine ⟨_, rfl, ?_⟩
  by_cases hv : e.valid = 0
  · simp [hv]
  · by_cases hr : e.requested = 0
    · by_cases hc : 0 < (numUnrequested s.proctab : Int) ∧
          (numUnrequested s.proctab : Int) ≤ 100 - sumPercent s.proctab
      · have hc1 : 0 < numUnrequested s.proctab ∧
            (numUnrequested s.proctab : Int) ≤ 100 - sumPercent s.proctab :=
          ⟨by exact_mod_cast hc.1, hc.2⟩
        have hone : 1 ≤ (100 - sumPercent s.proctab) / (numUnrequested s.proctab : Int) :=
          Int.le_ediv_of_mul_le hc.1 (by rw [one_mul]; exact hc.2)
        have hpos : 0 < (100 - sumPercent s.proctab) / (numUnrequested s.proctab : Int) := by
          omega
        simp only [hv, hr, hc, hc1, hpos, ne_eq, not_false_eq_true, not_true_eq_false,
          and_false, if_false, and_self, if_true, true_implies, false_implies, and_true,
          true_and]
        exact Int.tdiv_eq_ediv (by decide) (le_of_lt hpos)
      · have hc1 : ¬ (0 < numUnrequested s.proctab ∧
            (numUnrequested s.proctab : Int) ≤ 100 - sumPercent s.proctab) := by
          intro h
          exact hc ⟨by exact_mod_cast h.1, h.2⟩
        simp [hv, hr, hc, hc1]
    · simp [hv, hr]

theorem distributeCPU_spec_witness :
    ((-2147483547 : Int) ≤ sumPercent
        [{ valid := 1, pid := 1, requested := 1, stride := 2500, percent := 40, runnable := 1,
           passValue := 0 },
         { valid := 1, pid := 2, requested := 0, stride := 3030, percent := 0, runnable := 1,
           passValue := 0 },
         { valid := 1, pid := 3, requested := 0, stride := 3030, percent := 0, runnable := 1,
           passValue := 0 }] ∧
      sumPercent
        [{ valid := 1, pid := 1, requested := 1, stride := 2500, percent := 40, runnable := 1,
           passValue := 0 },
         { valid := 1, pid := 2, requested := 0, stride := 3030, percent := 0, runnable := 1,
           passValue := 0 },
         { valid := 1, pid := 3, requested := 0, stride := 3030, percent := 0, runnable := 1,
           passValue := 0 }] ≤ 2147483647) ∧
    (distributeCPU
      { proctab :=
          [{ valid := 1, pid := 1, requested := 1, stride := 2500, percent := 40, runnable := 1,
             passValue := 0 },
           { valid := 1, pid := 2, requested := 0, stride := 3030, percent := 0, runnable := 1,
             passValue := 0 },
           { valid := 1, pid := 3, requested := 0, stride := 3030, percent := 0, runnable := 1,
             passValue := 0 }],
        head := 0, tail := 0, isEmpty := 1, currCPURequested := 0 }).currCPURequested =
      sumPercent
        [{ valid := 1, pid := 1, requested := 1, stride := 2500, percent := 40, runnable := 1,
           passValue := 0 },
         { valid := 1, pid := 2, requested := 0, stride := 3030, percent := 0, runnable := 1,
           passValue := 0 },
         { valid := 1, pid := 3, requested := 0, stride := 3030, percent := 0, runnable := 1,
           passValue := 0 }] :=
  ⟨by decide,
    (distributeCPU_spec
      { proctab :=
          [{ valid := 1, pid := 1, requested := 1, stride := 2500, percent := 40, runnable := 1,
             passValue := 0 },
           { valid := 1, pid := 2, requested := 0, stride := 3030, percent := 0, runnable := 1,
             passValue := 0 },
           { valid := 1, pid := 3, requested := 0, stride := 3030, percent := 0, runnable := 1,
             passValue := 0 }],
        head := 0, tail := 0, isEmpty := 1, currCPURequested := 0 }
      (by decide) (by decide)).1⟩

/-- C17 (counterexample): with two valid requested slots of `percent` 1073741824
each, the sum of the percents is 2147483648, which no 32-bit `currCPURequested`
can hold; after `distributeCPU` it is -2147483648. -/
theorem distributeCPU_sum_overflow :
    sumPercent
      [{ valid := 1, pid := 1, requested := 1, stride := 0, percent := 1073741824,
         runnable := 1, passValue := 0 },
       { valid := 1, pid := 2, requested := 1, stride := 0, percent := 1073741824,
         runnable := 1, passValue := 0 }] = 2147483648 ∧
    (distributeCPU
      { proctab :=
          [{ valid := 1, pid := 1, requested := 1, stride := 0, percent := 1073741824,
             runnable := 1, passValue := 0 },
           { valid := 1, pid := 2, requested := 1, stride := 0, percent := 1073741824,
             runnable := 1, passValue := 0 }],
        head := 0, tail := 0, isEmpty := 1, currCPURequested := 0 }).currCPURequested
      = -2147483648 := by
  decide

/-! ## FIFO: the head of the ring is the earliest admitted process -/

theorem enterQueue_full {maxprocs h : Nat} {p : Int} {xs : List Int} {s : Sched}
    (hinv : RingSeq maxprocs h xs s) (hn : xs.length = maxprocs) :
    enterQueue p s = .ok (0, s) := by
  obtain ⟨hl, hh, hhead, htail, hne, _, _⟩ := hinv
  have hx : xs ≠ [] := by
    intro h0
    rw [h0] at hn
    simp at hn
    omega
  have ht : s.tail = (h : Int) := by
    rw [htail, hn, Nat.add_mod_right, Nat.mod_eq_of_lt hh]
  have hp : (h : Int).tmod (maxprocs : Int) = (h : Int) := by
    rw [natCast_tmod, Nat.mod_eq_of_lt hh]
  simp only [enterQueue, ht, hhead, MAXPROCS, hl, hp, hne hx, and_self, if_true]

theorem enterQueue_exact {maxprocs h : Nat} {p : Int} {xs : List Int} {s : Sched}
    (hinv : RingExact maxprocs h xs s) (hn : xs.length < maxprocs) :
    ∃ s1, enterQueue p s = .ok (1, s1) ∧ RingExact maxprocs h (xs ++ [p]) s1 := by
  obtain ⟨hseq, _, _, hout⟩ := hinv
  obtain ⟨s1, hs1, hseq1⟩ := @enterQueue_appends maxprocs h p xs s hseq hn
  refine ⟨s1, hs1, hseq1, by simp; omega, by simp, ?_⟩
  obtain ⟨hl, hh, hhead, htail, hne, hem, hslots⟩ := hseq
  have hM : 0 < maxprocs := by omega
  have ht : (h + xs.length) % maxprocs < maxprocs := Nat.mod_lt _ hM
  have hfree : ¬ ((((h + xs.length) % maxprocs : Nat) : Int) = s.head ∧ s.isEmpty = 0) := by
    rintro ⟨h1, h2⟩
    by_cases hx : xs = []
    · exact hem hx h2
    · have hpos : 0 < xs.length := List.length_pos.mpr hx
      have := @mod_ne_of_lt h (h + xs.length) maxprocs (by omega) (by omega)
      rw [Nat.mod_eq_of_lt hh] at this
      rw [hhead] at h1
      exact this (by exact_mod_cast h1.symm)
  obtain ⟨et, het⟩ : ∃ et, s.proctab[(h + xs.length) % maxprocs]? = some et :=
    ⟨_, List.getElem?_eq_getElem (by rw [hl]; exact ht)⟩
  have heq := @enterQueue_eq maxprocs _ p s et hl htail ht hfree het
  rw [hs1] at heq
  injection heq with heq
  injection heq with _ heq
  subst heq
  intro i e hi hoff
  simp only [List.length_append, List.length_cons, List.length_nil] at hoff
  have hit : (h + xs.length) % maxprocs ≠ i := hoff xs.length (by omega)
  simp only [] at hi
  rw [List.getElem?_set_ne hit] at hi
  exact hout i e hi (fun j hj => hoff j (by omega))

theorem exitQueue_wrong {maxprocs h : Nat} {p : Int} {xs : List Int} {s : Sched}
    (hinv : RingExact maxprocs h xs s) (hp : xs.head? ≠ some p) :
    exitQueue p s = .ok (0, s) := by
  obtain ⟨⟨hl, hh, hhead, _, _, _, hslots⟩, _, _, hout⟩ := hinv
  obtain ⟨e, he⟩ : ∃ e, s.proctab[h]? = some e :=
    ⟨_, List.getElem?_eq_getElem (by rw [hl]; exact hh)⟩
  have hrd : rd s s.head = .ok e := by rw [hhead]; exact rd_nat he
  have hc : e.valid = 0 ∨ e.pid ≠ p := by
    cases xs with
    | nil => exact Or.inl (hout h e he (fun j hj => by simp at hj))
    | cons x xs =>
      obtain ⟨e1, he1, _, hp1⟩ := hslots 0 x (by simp)
      rw [Nat.add_zero, Nat.mod_eq_of_lt hh, he] at he1
      cases he1
      right
      rw [hp1]
      intro hx
      exact hp (by simp [hx])
  simp only [exitQueue, hrd, hc, if_true]

theorem exitQueue_exact {maxprocs h : Nat} {x : Int} {xs : List Int} {s : Sched}
    (hinv : RingExact maxprocs h (x :: xs) s) :
    ∃ s1 h1, exitQueue x s = .ok (1, s1) ∧ RingExact maxprocs h1 xs s1 := by
  obtain ⟨⟨hl, hh, hhead, htail, hne, _, hslots⟩, hlen, _, hout⟩ := hinv
  have hM : 0 < maxprocs := by omega
  simp only [List.length_cons] at hlen htail
  obtain ⟨e, he, hv, hp⟩ := hslots 0 x (by simp)
  rw [Nat.add_zero, Nat.mod_eq_of_lt hh] at he
  have hrd : rd s (h : Int) = .ok e := rd_nat he
  have hwr := wr_nat (fun e => { e with valid := 0 }) he
  have hc : ¬ (e.valid = 0 ∨ e.pid ≠ x) := by
    rintro (h1 | h1)
    · exact hv h1
    · exact h1 hp
  have hidx : ∀ j, ((h + 1) % maxprocs + j) % maxprocs = (h + (j + 1)) % maxprocs := by
    intro j
    rw [Nat.mod_add_mod]
    congr 1
    omega
  have hoff : ∀ j, j < xs.length → h ≠ (h + (j + 1)) % maxprocs := by
    intro j hj
    have := @mod_ne_of_lt h (h + (j + 1)) maxprocs (by omega) (by omega)
    rwa [Nat.mod_eq_of_lt hh] at this
  simp only [exitQueue, hrd, hc, if_false, hwr, hhead, htail, MAXPROCS, List.length_set, hl,
    natCast_succ_tmod]
  by_cases hx : xs = []
  · subst hx
    simp only [List.length_nil, Nat.zero_add, if_true]
    refine ⟨_, 0, rfl, ⟨by simpa using hl, hM, rfl, ?_, fun h0 => absurd rfl h0,
      fun _ => by simp, ?_⟩, by simp, fun _ => rfl, ?_⟩
    · simp [Nat.mod_eq_of_lt hM]
    · intro j p hj
      simp at hj
    · intro i e1 hi _
      simp only [] at hi
      by_cases hih : h = i
      · subst hih
        rw [List.getElem?_set_self (by rw [hl]; exact hh)] at hi
        cases hi
        rfl
      · rw [List.getElem?_set_ne hih] at hi
        exact hout i e1 hi (fun j hj => by
          simp only [List.length_cons, List.length_nil] at hj
          have : j = 0 := by omega
          subst this
          rw [Nat.add_zero, Nat.mod_eq_of_lt hh]
          exact hih)
  · have hpos : 0 < xs.length := List.length_pos.mpr hx
    have hneq : ¬ ((((h + 1) % maxprocs : Nat) : Int) =
        (((h + (xs.length + 1)) % maxprocs : Nat) : Int)) := by
      intro hc1
      have hc2 : (h + 1) % maxprocs = (h + (xs.length + 1)) % maxprocs := by exact_mod_cast hc1
      exact mod_ne_of_lt (by omega) (by omega) hc2
    simp only [hneq, if_false]
    refine ⟨_, (h + 1) % maxprocs, rfl, ⟨by simpa using hl, Nat.mod_lt _ hM, rfl, ?_,
      fun _ => hne (by simp), fun h0 => absurd h0 hx, ?_⟩, by omega,
      fun h0 => absurd h0 hx, ?_⟩
    · simp only []
      rw [hidx]
    · intro j p hj
      obtain ⟨e1, he1, hv1, hp1⟩ := hslots (j + 1) p (by simpa using hj)
      obtain ⟨hjl, _⟩ := List.getElem?_eq_some.mp hj
      refine ⟨e1, ?_, hv1, hp1⟩
      rw [hidx]
      simp only []
      rw [List.getElem?_set_ne (hoff j hjl)]
      exact he1
    · intro i e1 hi hoffnew
      simp only [] at hi
      by_cases hih : h = i
      · subst hih
        rw [List.getElem?_set_self (by rw [hl]; exact hh)] at hi
        cases hi
        rfl
      · rw [List.getElem?_set_ne hih] at hi
        refine hout i e1 hi (fun j hj => ?_)
        simp only [List.length_cons] at hj
        cases j with
        | zero =>
          rw [Nat.add_zero, Nat.mod_eq_of_lt hh]
          exact hih
        | succ j =>
          have := hoffnew j (by omega)
          rwa [hidx] at this

theorem ringExact_init {maxprocs : Nat} (hM : 0 < maxprocs) :
    RingExact maxprocs 0 [] (InitSched (boot maxprocs)) := by
  refine ⟨ringSeq_init hM, by simp, fun _ => rfl, ?_⟩
  intro i e hi _
  simp only [InitSched, List.getElem?_map] at hi
  cases hget : (boot maxprocs).proctab[i]? with
  | none => rw [hget] at hi; simp at hi
  | some e0 =>
    rw [hget] at hi
    simp only [Option.map_some', Option.some.injEq] at hi
    rw [← hi]

theorem schedProc_fifo_head {maxprocs h : Nat} {x : Int} {xs : List Int} {s : Sched}
    (hinv : RingSeq maxprocs h (x :: xs) s) : SchedProc .FIFO s = .ok (x, s) := by
  obtain ⟨_, hh, hhead, _, _, _, hslots⟩ := hinv
  obtain ⟨e, he, hv, hp⟩ := hslots 0 x (by simp)
  rw [Nat.add_zero, Nat.mod_eq_of_lt hh] at he
  have hrd : rd s s.head = .ok e := by rw [hhead]; exact rd_nat he
  simp only [SchedProc, hrd, hv, ne_eq, not_false_eq_true, if_true, hp]

theorem schedProc_fifo_state {r : Int} {s s1 : Sched} (h : SchedProc .FIFO s = .ok (r, s1)) :
    s1 = s := by
  simp only [SchedProc] at h
  split at h
  · cases h
  · split_ifs at h
    · cases h; rfl
    · exact schedLIFO_state h

theorem fifo_run_exact {maxprocs : Nat} (cs : List Call) :
    ∀ (s : Sched) (h : Nat) (xs : List Int) (rs : List Int) (s1 : Sched),
      RingExact maxprocs h xs s → (∀ c ∈ cs, Call.allowed .FIFO c) →
      runCalls .FIFO cs s = .ok (rs, s1) →
      ∃ h1, RingExact maxprocs h1 (pendingFifo xs (cs.zip rs)) s1 := by
  induction cs with
  | nil =>
    intro s h xs rs s1 hinv _ hrun
    simp only [runCalls] at hrun
    cases hrun
    exact ⟨h, by simpa [pendingFifo] using hinv⟩
  | cons c cs ih =>
    intro s h xs rs s1 hinv hall hrun
    have hall1 : ∀ c1 ∈ cs, Call.allowed .FIFO c1 := fun c1 hc1 => hall c1 (by simp [hc1])
    simp only [runCalls] at hrun
    split at hrun
    · cases hrun
    · rename_i r s2 hstep
      split at hrun
      · cases hrun
      · rename_i rs1 s3 hrest
        cases hrun
        simp only [List.zip_cons_cons]
        cases c with
        | start p =>
          simp only [pendingFifo]
          have hle := hinv.2.1
          by_cases hn : xs.length < maxprocs
          · obtain ⟨s4, hs4, hinv4⟩ := @enterQueue_exact maxprocs h p xs s hinv hn
            have : step .FIFO (Call.start p) s = .ok (1, s4) := hs4
            rw [this] at hstep
            cases hstep
            simpa using ih _ h (xs ++ [p]) rs1 _ hinv4 hall1 hrest
          · have hs4 := @enterQueue_full maxprocs h p xs s hinv.1 (by omega)
            have : step .FIFO (Call.start p) s = .ok (0, s) := hs4
            rw [this] at hstep
            cases hstep
            simpa using ih _ h xs rs1 _ hinv hall1 hrest
        | finish p =>
          simp only [pendingFifo]
          by_cases hp : xs.head? = some p
          · cases xs with
            | nil => simp at hp
            | cons x xs =>
              have hx : x = p := by simpa using hp
              subst hx
              obtain ⟨s4, h4, hs4, hinv4⟩ := exitQueue_exact hinv
              have : step .FIFO (Call.finish x) s = .ok (1, s4) := hs4
              rw [this] at hstep
              cases hstep
              simpa using ih _ h4 xs rs1 _ hinv4 hall1 hrest
          · have hs4 := exitQueue_wrong hinv hp
            have : step .FIFO (Call.finish p) s = .ok (0, s) := hs4
            rw [this] at hstep
            cases hstep
            simpa using ih _ h xs rs1 _ hinv hall1 hrest
        | sched =>
          simp only [pendingFifo]
          have : s2 = s := schedProc_fifo_state hstep
          subst this
          exact ih _ h xs rs1 _ hinv hall1 hrest
        | request p n =>
          have := hall (Call.request p n) (by simp)
          simp [Call.allowed] at this

/-- C14: under FIFO, in every state reached from `InitSched` by `StartingProc`,
`EndingProc` and `SchedProc` calls in which some slot is valid, the slot at
`head` is valid and holds the pid `q` of the earliest-admitted process not yet
removed, `SchedProc` returns `q` (and leaves the state as it is), and
`EndingProc(p)` returns 1 when `p = q` and 0 otherwise. -/
theorem fifo_head_is_earliest (maxprocs : Nat) (cs : List Call) (rs : List Int) (s : Sched)
    (hM : 0 < maxprocs) (hall : ∀ c ∈ cs, Call.allowed .FIFO c)
    (hrun : runCalls .FIFO cs (InitSched (boot maxprocs)) = .ok (rs, s))
    (hvalid : ∃ e ∈ s.proctab, e.valid ≠ 0) :
    ∃ q, (pendingFifo [] (cs.zip rs)).head? = some q ∧
      (∃ e, rd s s.head = .ok e ∧ e.valid ≠ 0 ∧ e.pid = q) ∧
      SchedProc .FIFO s = .ok (q, s) ∧
      ∀ p, retval (EndingProc .FIFO p s) = some (if p = q then 1 else 0) := by
  obtain ⟨h1, hinv⟩ := fifo_run_exact cs _ 0 [] rs s (ringExact_init hM) hall hrun
  cases hxs : pendingFifo [] (cs.zip rs) with
  | nil =>
    rw [hxs] at hinv
    obtain ⟨e, hmem, hv⟩ := hvalid
    obtain ⟨i, hi⟩ := List.mem_iff_getElem?.mp hmem
    exact absurd (hinv.2.2.2 i e hi (fun j hj => by simp at hj)) hv
  | cons q xs =>
    rw [hxs] at hinv
    have hslot : ∃ e, rd s s.head = .ok e ∧ e.valid ≠ 0 ∧ e.pid = q := by
      obtain ⟨_, hh, hhead, _, _, _, hslots⟩ := hinv.1
      obtain ⟨e, he, hv, hp⟩ := hslots 0 q (by simp)
      rw [Nat.add_zero, Nat.mod_eq_of_lt hh] at he
      exact ⟨e, by rw [hhead]; exact rd_nat he, hv, hp⟩
    refine ⟨q, rfl, hslot, schedProc_fifo_head hinv.1, ?_⟩
    intro p
    by_cases hp : p = q
    · subst hp
      obtain ⟨s1, _, hs1, _⟩ := exitQueue_exact hinv
      have : EndingProc .FIFO p s = .ok (1, s1) := hs1
      simp [this, retval]
    · have hs1 := @exitQueue_wrong maxprocs h1 p (q :: xs) s hinv
        (by simpa using fun hq => hp hq.symm)
      have : EndingProc .FIFO p s = .ok (0, s) := hs1
      simp [this, retval, hp]

theorem fifo_head_is_earliest_witness :
    runCalls .FIFO [.start 7, .start 8, .sched, .finish 7] (InitSched (boot 3)) =
      .ok ([1, 1, 7, 1],
        ⟨[⟨0, 7, 0, 0, 0, 0, 0⟩, ⟨1, 8, 0, 0, 0, 0, 0⟩, ⟨0, 0, 0, 0, 0, 0, 0⟩], 1, 2, 0, 0⟩) ∧
    ∃ q, (pendingFifo [] ([Call.start 7, Call.start 8, Call.sched, Call.finish 7].zip
        [1, 1, 7, 1])).head? = some q ∧
      (∃ e, rd ⟨[⟨0, 7, 0, 0, 0, 0, 0⟩, ⟨1, 8, 0, 0, 0, 0, 0⟩, ⟨0, 0, 0, 0, 0, 0, 0⟩], 1, 2, 0, 0⟩
          (1 : Int) = .ok e ∧ e.valid ≠ 0 ∧ e.pid = q) ∧
      SchedProc .FIFO
        ⟨[⟨0, 7, 0, 0, 0, 0, 0⟩, ⟨1, 8, 0, 0, 0, 0, 0⟩, ⟨0, 0, 0, 0, 0, 0, 0⟩], 1, 2, 0, 0⟩ =
        .ok (q, ⟨[⟨0, 7, 0, 0, 0, 0, 0⟩, ⟨1, 8, 0, 0, 0, 0, 0⟩, ⟨0, 0, 0, 0, 0, 0, 0⟩],
          1, 2, 0, 0⟩) ∧
      ∀ p, retval (EndingProc .FIFO p
        ⟨[⟨0, 7, 0, 0, 0, 0, 0⟩, ⟨1, 8, 0, 0, 0, 0, 0⟩, ⟨0, 0, 0, 0, 0, 0, 0⟩], 1, 2, 0, 0⟩) =
        some (if p = q then 1 else 0) :=
  ⟨rfl, fifo_head_is_earliest 3 [.start 7, .start 8, .sched, .finish 7] [1, 1, 7, 1]
    ⟨[⟨0, 7, 0, 0, 0, 0, 0⟩, ⟨1, 8, 0, 0, 0, 0, 0⟩, ⟨0, 0, 0, 0, 0, 0, 0⟩], 1, 2, 0, 0⟩
    (by decide)
    (by
      intro c hc
      simp only [List.mem_cons, List.mem_singleton, List.not_mem_nil, or_false] at hc
      rcases hc with rfl | rfl | rfl | rfl <;> exact True.intro)
    rfl
    ⟨⟨1, 8, 0, 0, 0, 0, 0⟩, by simp, by decide⟩⟩
/-! ## The overflow guard of `runProc` -/

theorem strideRun_start :
    runCalls .PROPORTIONAL [.start 1, .start 2, .request 1 100, .request 1 100]
      (InitSched (boot 10)) = .ok ([1, 1, 0, 0], strideRun 0 0) := by
  rfl

theorem strideRun_step (a b : Int) (h0 : -2147483648 ≤ a) (h1 : a + 1000 ≤ 2147483647) :
    SchedProc .PROPORTIONAL (strideRun a b) = .ok (1, strideRun (a + 1000) b) := by
  have hw : wrap32 (a + 1000) = a + 1000 := wrap32_eq_self (by omega) h1
  have hlt : a < 2147483647 := by omega
  have hg : ¬ (a + 1000 < a) := by omega
  have hov : ¬ (a + 1000 < -2147483648 ∨ 2147483647 < a + 1000) := by omega
  simp [SchedProc, runProc, runProcScan, strideRun, rd, wr, MAXPROCS, MAX_INT, zeroProc, hw,
    hlt, hg, hov, isInRange]

theorem strideRun_reach_iter (b : Int) (k : Nat) :
    ∀ a : Int, -2147483648 ≤ a → a + 1000 * (k : Int) ≤ 2147483647 →
      Reach .PROPORTIONAL 10 (strideRun a b) →
      Reach .PROPORTIONAL 10 (strideRun (a + 1000 * (k : Int)) b) := by
  induction k with
  | zero =>
    intro a _ _ hr
    simpa using hr
  | succ k ih =>
    intro a h0 h1 hr
    push_cast at h1
    have hstep : step .PROPORTIONAL Call.sched (strideRun a b) =
        .ok (1, strideRun (a + 1000) b) := strideRun_step a b h0 (by omega)
    have hall : Call.allowed .PROPORTIONAL Call.sched := True.intro
    have hr1 := Reach.call hr hall hstep
    have := ih (a + 1000) (by omega) (by omega) hr1
    have he : a + 1000 * ((k + 1 : Nat) : Int) = a + 1000 + 1000 * (k : Int) := by
      push_cast; ring
    rw [he]
    exact this

theorem reach_of_runCalls {pol : Policy} {maxprocs : Nat} (cs : List Call) :
    ∀ (s s1 : Sched) (rs : List Int), (∀ c ∈ cs, Call.allowed pol c) →
      Reach pol maxprocs s → runCalls pol cs s = .ok (rs, s1) → Reach pol maxprocs s1 := by
  induction cs with
  | nil =>
    intro s s1 rs _ hr hrun
    simp only [runCalls] at hrun
    cases hrun
    exact hr
  | cons c cs ih =>
    intro s s1 rs hall hr hrun
    simp only [runCalls] at hrun
    split at hrun
    · cases hrun
    · rename_i r s2 hstep
      split at hrun
      · cases hrun
      · rename_i rs1 s3 hrest
        cases hrun
        exact ih s2 _ rs1 (fun c1 hc1 => hall c1 (by simp [hc1]))
          (Reach.call hr (hall c (by simp)) hstep) hrest

/-- C20: the state `strideRun 2147483000 0` is reachable under the proportional
policy with requests in range only (`StartingProc(1)`, `StartingProc(2)`, two
requests of 100 by pid 1, then 2147483 decisions).  In it the winner is slot 0
with `passValue` 2147483000 and stride 1000; their sum 2147484000 is above
`MAX_INT`, so the addition inside the guard is a signed overflow and neither
`runProc` nor `SchedProc` has a defined result.  Stored without the shift,
`passValue += stride` would leave -2147483296 and not the stride. -/
theorem overflow_guard_undefined :
    Reach .PROPORTIONAL 10 (strideRun 2147483000 0) ∧
    (runProcScan (strideRun 2147483000 0).proctab 0 MAX_INT none).2 = some 0 ∧
    ((strideRun 2147483000 0).proctab.take 2).map
        (fun e => (e.valid, e.runnable, e.passValue, e.stride)) =
      [(1, 1, 2147483000, 1000), (1, 0, 0, 2000)] ∧
    MAX_INT < 2147483000 + 1000 ∧
    wrap32 (2147483000 + 1000) = -2147483296 ∧
    runProc (strideRun 2147483000 0) = .error .overflow ∧
    SchedProc .PROPORTIONAL (strideRun 2147483000 0) = .error .overflow := by
  refine ⟨?_, by decide, by decide, by decide, by decide, rfl, rfl⟩
  have h0 : Reach .PROPORTIONAL 10 (strideRun 0 0) :=
    reach_of_runCalls _ _ _ _
      (by
        intro c hc
        simp only [List.mem_cons, List.mem_singleton, List.not_mem_nil, or_false] at hc
        rcases hc with rfl | rfl | rfl | rfl <;> first | exact True.intro | rfl)
      Reach.init strideRun_start
  have h1 := strideRun_reach_iter 0 2147483 0 (by decide) (by decide) h0
  simpa using h1

end Scheduling
